import Mathlib

/-!
Shallow embedding of the `bootstrap` Go repository.

The `dag` namespace embeds `src/dag/graph.go` and the `Node` type of
`src/dag/node.go`; the `BS` namespace embeds the container in
`src/bootstrap.go` (`Add`, `Run`, `Cleanup`, `execute`).

Conventions of the embedding:
* `reflect.Type` capability keys are `Nat`.
* A `*dag.Node` pointer is modelled by the `id : Nat` field; Go compares
  nodes by pointer identity, so the maps `producers`, `deps`, `visited`,
  `inStack` are keyed by `id`.  Distinct allocations have distinct ids,
  which theorems assume as a `Nodup` hypothesis where it matters.
* Go maps are modelled as association lists with `lookupN`.
* The recursive DFS functions of `graph.go` are given a fuel argument
  (decremented once per node entered); exhaustion yields the extra
  `DagError.outOfFuel` outcome, which the theorems prove unreachable or
  condition away.  The Go `for _, m := range deps[n]` loop is `foldE`.
* Error values are kept structured (`DagError`) together with the exact
  rendering (`DagError.message`) of the `fmt.Errorf` strings in the source.
-/

def exceptDecEq {ε α : Type} [DecidableEq ε] [DecidableEq α] :
    (x y : Except ε α) → Decidable (x = y)
  | .ok a, .ok b =>
    if h : a = b then .isTrue (by rw [h]) else .isFalse (fun hc => h (Except.ok.inj hc))
  | .error a, .error b =>
    if h : a = b then .isTrue (by rw [h]) else .isFalse (fun hc => h (Except.error.inj hc))
  | .ok _, .error _ => .isFalse (fun hc => Except.noConfusion hc)
  | .error _, .ok _ => .isFalse (fun hc => Except.noConfusion hc)

instance {ε α : Type} [DecidableEq ε] [DecidableEq α] : DecidableEq (Except ε α) :=
  exceptDecEq

namespace dag

/-- Embeds `dag.Node` (src/dag/node.go): a constructor with its declared
input capability keys, output (non-error) capability keys in slot order,
and the indices of error-typed return slots.  `id` models the pointer
identity of the Go `*Node`; `label` models `nodeLabel`. -/
structure DNode where
  id : Nat
  label : String
  inputs : List Nat
  outputs : List Nat
  errorIndices : List Nat
deriving DecidableEq, Repr

/-- Structured form of the errors produced in `src/dag/graph.go`.
`outOfFuel` is an artifact of the fuel embedding of the recursion and
corresponds to no Go behaviour. -/
inductive DagError where
  | duplicateProvider (key : Nat) (labelA labelB : String)
  | missingDependency (key : Nat) (labelOf : String)
  | cycle (path : List String)
  | outOfFuel
deriving DecidableEq, Repr

/-- The exact error strings built with `fmt.Errorf` / `errors.New` in
`src/dag/graph.go`. -/
def DagError.message : DagError → String
  | .duplicateProvider k a b =>
      "duplicate provider for type " ++ toString k ++ ": " ++ a ++ " and " ++ b
  | .missingDependency k c =>
      "missing dependency for type " ++ toString k ++ " in " ++ c
  | .cycle p => "cyclic dependence: " ++ String.intercalate " -> " p
  | .outOfFuel => "out of fuel"

/-- Association-list lookup, modelling Go map indexing. -/
def lookupN (a : Nat) : List (Nat × α) → Option α
  | [] => none
  | (b, v) :: rest => if b = a then some v else lookupN a rest

/-- Association-list key removal, modelling Go `delete(m, a)`. -/
def eraseKey (a : Nat) : List (Nat × α) → List (Nat × α)
  | [] => []
  | (b, v) :: rest => if b = a then eraseKey a rest else (b, v) :: eraseKey a rest

/-- Inner loop of step 1 of `Resolve`: insert one node's output keys into
the `producers` map, failing on an already-present key. -/
def insertOutputs (n : DNode) : List Nat → List (Nat × DNode) →
    Except DagError (List (Nat × DNode))
  | [], acc => .ok acc
  | k :: ks, acc =>
    match lookupN k acc with
    | some existing => .error (.duplicateProvider k existing.label n.label)
    | none => insertOutputs n ks ((k, n) :: acc)

/-- Step 1 of `Resolve` (src/dag/graph.go:14-24): map outputs to producers. -/
def buildProducers : List DNode → List (Nat × DNode) →
    Except DagError (List (Nat × DNode))
  | [], acc => .ok acc
  | n :: ns, acc =>
    match insertOutputs n n.outputs acc with
    | .error e => .error e
    | .ok acc' => buildProducers ns acc'

/-- `deps[a] = append(deps[a], m)` on the adjacency map. -/
def depsInsert : List (Nat × List DNode) → Nat → DNode → List (Nat × List DNode)
  | [], a, m => [(a, [m])]
  | (b, l) :: rest, a, m =>
    if b = a then (b, l ++ [m]) :: rest else (b, l) :: depsInsert rest a m

/-- Inner loop of step 2 of `Resolve`: record an edge from consumer `n` to
the producer of each input key, failing on a missing producer. -/
def addInputs (prods : List (Nat × DNode)) (n : DNode) :
    List Nat → List (Nat × List DNode) → Except DagError (List (Nat × List DNode))
  | [], d => .ok d
  | k :: ks, d =>
    match lookupN k prods with
    | some prod => addInputs prods n ks (depsInsert d n.id prod)
    | none => .error (.missingDependency k n.label)

/-- Step 2 of `Resolve` (src/dag/graph.go:26-37): build the dependency graph. -/
def buildDeps (prods : List (Nat × DNode)) :
    List DNode → List (Nat × List DNode) → Except DagError (List (Nat × List DNode))
  | [], d => .ok d
  | n :: ns, d =>
    match addInputs prods n n.inputs d with
    | .error e => .error e
    | .ok d' => buildDeps prods ns d'

/-- `deps[n]` with the Go zero value `nil` for absent keys. -/
def depsOfId (deps : List (Nat × List DNode)) (a : Nat) : List DNode :=
  (lookupN a deps).getD []

/-- The edge relation on node ids induced by the adjacency map:
`stepD deps a b` holds when the node with id `a` depends on a node with
id `b`. -/
def stepD (deps : List (Nat × List DNode)) (a b : Nat) : Prop :=
  b ∈ (depsOfId deps a).map DNode.id

instance (deps : List (Nat × List DNode)) (a b : Nat) :
    Decidable (stepD deps a b) := by
  unfold stepD; infer_instance

/-- State of the `checkCycles` DFS: permanently `visited` ids, the
`inStack` map from id to position on the current path, and the explicit
path `stack`. -/
structure CycSt where
  visited : List Nat
  inStack : List (Nat × Nat)
  stack : List DNode
deriving Repr

/-- Sequencing of a visit over a list of dependencies, modelling the
`for _, m := range deps[n] { if err := visit(m); err != nil { return err } }`
loops in src/dag/graph.go. -/
def foldE (f : DNode → σ → Except DagError σ) : List DNode → σ → Except DagError σ
  | [], st => .ok st
  | n :: rest, st =>
    match f n st with
    | .error e => .error e
    | .ok st' => foldE f rest st'

/-- The recursive `visit` of `checkCycles` (src/dag/graph.go:86-113).
Fuel is consumed once per node entered; the quick exits (node on the
current path, node already visited) do not consume fuel. -/
def cvisit (deps : List (Nat × List DNode)) : Nat → DNode → CycSt → Except DagError CycSt
  | fuel, n, st =>
    match lookupN n.id st.inStack with
    | some idx =>
      .error (.cycle (((st.stack.drop idx) ++ [n]).map DNode.label))
    | none =>
      if n.id ∈ st.visited then .ok st
      else
        match fuel with
        | 0 => .error .outOfFuel
        | fuel' + 1 =>
          match foldE (cvisit deps fuel') (depsOfId deps n.id)
              ⟨st.visited, (n.id, st.stack.length) :: st.inStack, st.stack ++ [n]⟩ with
          | .error e => .error e
          | .ok st2 =>
            .ok ⟨n.id :: st2.visited,
                 eraseKey n.id st2.inStack,
                 st2.stack.dropLast⟩

/-- Outer loop of `checkCycles` (src/dag/graph.go:115-122). -/
def checkLoop (deps : List (Nat × List DNode)) (fuel : Nat) :
    List DNode → CycSt → Except DagError CycSt
  | [], st => .ok st
  | n :: rest, st =>
    if n.id ∈ st.visited then checkLoop deps fuel rest st
    else
      match cvisit deps fuel n st with
      | .error e => .error e
      | .ok st' => checkLoop deps fuel rest st'

/-- `checkCycles` (src/dag/graph.go:78-125). -/
def checkCycles (nodes : List DNode) (deps : List (Nat × List DNode)) :
    Except DagError Unit :=
  match checkLoop deps (nodes.length + 1) nodes ⟨[], [], []⟩ with
  | .error e => .error e
  | .ok _ => .ok ()

/-- State of the topological-sort DFS: the separate `visited` marker and
the accumulated post-order `sorted` list. -/
structure TopoSt where
  visited : List Nat
  sorted : List DNode
deriving Repr

/-- The recursive `visit` of the topological sort (src/dag/graph.go:56-67):
recurse into dependencies first, then append the node. -/
def tvisit (deps : List (Nat × List DNode)) : Nat → DNode → TopoSt → Except DagError TopoSt
  | fuel, n, st =>
    if n.id ∈ st.visited then .ok st
    else
      match fuel with
      | 0 => .error .outOfFuel
      | fuel' + 1 =>
        match foldE (tvisit deps fuel') (depsOfId deps n.id) st with
        | .error e => .error e
        | .ok st1 => .ok ⟨n.id :: st1.visited, st1.sorted ++ [n]⟩

/-- Outer loop of the topological sort (src/dag/graph.go:69-73). -/
def topoLoop (deps : List (Nat × List DNode)) (fuel : Nat) :
    List DNode → TopoSt → Except DagError TopoSt
  | [], st => .ok st
  | n :: rest, st =>
    if n.id ∈ st.visited then topoLoop deps fuel rest st
    else
      match tvisit deps fuel n st with
      | .error e => .error e
      | .ok st' => topoLoop deps fuel rest st'

/-- `topologicalSort` (src/dag/graph.go:43-76): first check for cycles,
then perform the post-order DFS. -/
def topologicalSort (nodes : List DNode) (deps : List (Nat × List DNode)) :
    Except DagError (List DNode) :=
  match checkCycles nodes deps with
  | .error e => .error e
  | .ok _ =>
    match topoLoop deps (nodes.length + 1) nodes ⟨[], []⟩ with
    | .error e => .error e
    | .ok st => .ok st.sorted

/-- `Resolve` (src/dag/graph.go:13-41). -/
def Resolve (nodes : List DNode) : Except DagError (List DNode) :=
  match buildProducers nodes [] with
  | .error e => .error e
  | .ok prods =>
    match buildDeps prods nodes [] with
    | .error e => .error e
    | .ok deps => topologicalSort nodes deps

/-- Invariant of the `checkCycles` DFS state: `inStack` is exactly the
position map of `stack`; `stack` is a dependency path of nodes of the
list; permanently visited ids are dependency-closed, lie on no cycle, and
are disjoint from the current path. -/
def CycInv (nodes : List DNode) (deps : List (Nat × List DNode)) (st : CycSt) : Prop :=
  (∀ (a j : Nat), lookupN a st.inStack = some j →
     ∃ x : DNode, st.stack[j]? = some x ∧ x.id = a) ∧
  (∀ (j : Nat) (x : DNode), st.stack[j]? = some x →
     lookupN x.id st.inStack = some j) ∧
  List.Chain' (fun x y => y ∈ depsOfId deps x.id) st.stack ∧
  (∀ x ∈ st.stack, x ∈ nodes) ∧
  (∀ a ∈ st.visited, ∀ m ∈ depsOfId deps a, m.id ∈ st.visited) ∧
  (∀ a ∈ st.visited, ¬ Relation.TransGen (stepD deps) a a) ∧
  (∀ a j, lookupN a st.inStack = some j → a ∉ st.visited)

/-- What a cycle error produced by `checkCycles` looks like: the message
renders the labels of a dependency chain of length at least 2 whose first
and last nodes coincide — the cycle from the revisited node back to
itself. -/
def CycErrSpec (nodes : List DNode) (deps : List (Nat × List DNode)) (e : DagError) : Prop :=
  ∃ cyc : List DNode, e = .cycle (cyc.map DNode.label) ∧ 2 ≤ cyc.length ∧
    cyc.head? = cyc.getLast? ∧
    List.Chain' (fun x y => y ∈ depsOfId deps x.id) cyc ∧
    ∀ x ∈ cyc, x ∈ nodes

/-- Invariant of the topological-sort DFS state: `visited` is the id set
of `sorted`, `sorted` has no duplicate ids, draws from the node list, and
is dependency-closed position-wise — every dependency of an emitted node
appears strictly earlier. -/
def TopoInv (nodes : List DNode) (deps : List (Nat × List DNode)) (st : TopoSt) : Prop :=
  (∀ a, a ∈ st.visited ↔ a ∈ st.sorted.map DNode.id) ∧
  (st.sorted.map DNode.id).Nodup ∧
  (∀ x ∈ st.sorted, x ∈ nodes) ∧
  (∀ (j : Nat) (x : DNode), st.sorted[j]? = some x → ∀ m ∈ depsOfId deps x.id,
     ∃ j' < j, st.sorted[j']? = some m)

end dag

namespace BS

/-- A deferred release action registered via the `Cleanable` interface:
`cid` identifies the receiver, `retErr` is the error the `Cleanup()` call
returns (`none` = nil). -/
structure Cleanup0 where
  cid : Nat
  retErr : Option String
deriving DecidableEq, Repr

/-- A `reflect.Value` produced by a constructor: `payload` is an opaque
identity, `valid` models `IsValid`, `nilRef` models "has a nillable kind
and `IsNil()`", `cleanable` is the `Cleanable` type assertion. -/
structure GoVal where
  payload : Nat
  valid : Bool
  nilRef : Bool
  cleanable : Option Cleanup0
deriving DecidableEq, Repr

/-- One return slot of a constructor call.  `reflect` guarantees that the
slots at a node's `errorIndices` are error-typed (`err`) and all others are
value slots (`val`); the embedding's `execute` relies on this the same way
the Go code does. -/
inductive Slot where
  | err (e : Option String)
  | val (v : GoVal)
deriving DecidableEq, Repr

/-- Errors produced at registration time by `Bootstrap.add` and its
helpers (src/bootstrap.go:122-176). -/
inductive RegErr where
  | notFuncOrPtr
  | nilTarget
  | injectProhibited (kind : String)
deriving DecidableEq, Repr

/-- Errors produced by `Bootstrap.execute` (src/bootstrap.go:270-339):
an internal cache miss, or a constructor-surfaced error propagated
verbatim. -/
inductive ExecErr where
  | internal (key : Nat)
  | constructor (e : String)
deriving DecidableEq, Repr

/-- The error returned by `Bootstrap.Run`, tagged by its origin. -/
inductive RunErr where
  | reg (e : RegErr)
  | dagE (e : dag.DagError)
  | exec (e : ExecErr)
deriving DecidableEq, Repr

/-- The raw signature of a constructor as seen by reflection: the input
capability keys and the ordered return slots (`errSlot` = implements
`error`, `capSlot k` = produces capability `k`).  `ptrId` models
`reflect.Value.Pointer()`, `insInject`/`retsInject` model the
`checkInjectInTypes` verdicts on inputs and outputs. -/
inductive Ret where
  | errSlot
  | capSlot (k : Nat)
deriving DecidableEq, Repr

structure FnDesc where
  ptrId : Nat
  label : String
  ins : List Nat
  rets : List Ret
  insInject : Bool
  retsInject : Bool
deriving DecidableEq, Repr

/-- `dag.NewNode` (src/dag/node.go): split return slots into non-error
outputs (order preserved) and the indices of error-typed slots. -/
def mkNode (f : FnDesc) : dag.DNode where
  id := f.ptrId
  label := f.label
  inputs := f.ins
  outputs := f.rets.filterMap (fun r => match r with | .capSlot k => some k | .errSlot => none)
  errorIndices := f.rets.enum.filterMap
    (fun p => match p.2 with | .errSlot => some p.1 | .capSlot _ => none)

/-- An argument to `Bootstrap.Add`, by the case analysis of
`Bootstrap.add` (src/bootstrap.go:122-148): a constructor function, a nil
pointer, a pointer to a struct embedding `Inject` (its exported non-marker
field types listed), a pointer used for target population (its pointee
type), or anything else. -/
inductive RegItem where
  | func (f : FnDesc)
  | nilPointer
  | injectStruct (fields : List Nat)
  | target (t : Nat)
  | other
deriving DecidableEq, Repr

/-- The mutable container state of `Bootstrap` (src/bootstrap.go:13-23).
`fresh` supplies the pointer identities of the synthetic `reflect.MakeFunc`
nodes; the cancellable context is not modelled. -/
structure Boot where
  providers : List dag.DNode
  values : List (Nat × GoVal)
  cleanups : List Cleanup0
  functions : List Nat
  fresh : Nat
  err : Option RegErr
deriving DecidableEq, Repr

/-- `Bootstrap.registerProvider` (src/bootstrap.go:150-176): reject
`Inject`-shaped types, deduplicate by function pointer, append the node. -/
def registerProvider (b : Boot) (f : FnDesc) : Except RegErr Boot :=
  if f.insInject then .error (.injectProhibited "input")
  else if f.retsInject then .error (.injectProhibited "output")
  else if f.ptrId ∈ b.functions then .ok b
  else .ok { b with functions := f.ptrId :: b.functions,
                    providers := b.providers ++ [mkNode f] }

/-- `Bootstrap.registerTargetPopulator` (src/bootstrap.go:178-204):
append a synthetic zero-output node consuming the pointee type; no
function-pointer deduplication. -/
def registerTargetPopulator (b : Boot) (t : Nat) : Except RegErr Boot :=
  .ok { b with providers := b.providers ++ [⟨b.fresh, "populator", [t], [], []⟩],
               fresh := b.fresh + 1 }

/-- `Bootstrap.registerStructInjector` (src/bootstrap.go:206-240):
append a synthetic zero-output node consuming the field types. -/
def registerStructInjector (b : Boot) (fields : List Nat) : Except RegErr Boot :=
  .ok { b with providers := b.providers ++ [⟨b.fresh, "injector", fields, [], []⟩],
               fresh := b.fresh + 1 }

/-- `Bootstrap.add` (src/bootstrap.go:122-148). -/
def addOne (b : Boot) : RegItem → Except RegErr Boot
  | .func f => registerProvider b f
  | .nilPointer => .error .nilTarget
  | .injectStruct fields => registerStructInjector b fields
  | .target t => registerTargetPopulator b t
  | .other => .error .notFuncOrPtr

/-- The loop body of `Bootstrap.Add`: process items until the first
failure, which is stored in `err` and stops the loop. -/
def addLoop (b : Boot) : List RegItem → Boot
  | [] => b
  | it :: its =>
    match addOne b it with
    | .error e => { b with err := some e }
    | .ok b' => addLoop b' its

/-- `Bootstrap.Add` (src/bootstrap.go:59-74): a no-op once an error has
been recorded. -/
def Add (b : Boot) (items : List RegItem) : Boot :=
  if b.err.isSome then b else addLoop b items

/-- The execution-relevant part of the container state mutated by
`Bootstrap.execute`: the value cache and the cleanup list. -/
structure ExecSt where
  values : List (Nat × GoVal)
  cleanups : List Cleanup0
deriving DecidableEq, Repr

/-- Argument gathering of `Bootstrap.execute` (src/bootstrap.go:271-280):
look each input key up in the value cache, failing with the internal
error on the first missing key. -/
def gatherArgs (vals : List (Nat × GoVal)) : List Nat → Except ExecErr (List GoVal)
  | [] => .ok []
  | k :: ks =>
    match dag.lookupN k vals with
    | some v =>
      match gatherArgs vals ks with
      | .error e => .error e
      | .ok rest => .ok (v :: rest)
    | none => .error (.internal k)

/-- The error-return check of `Bootstrap.execute` (src/bootstrap.go:284-290):
the first error index whose slot holds a non-nil error decides the result. -/
def firstErr (results : List Slot) : List Nat → Option String
  | [] => none
  | idx :: rest =>
    match results.get? idx with
    | some (.err (some e)) => some e
    | _ => firstErr results rest

/-- The store-and-register loop of `Bootstrap.execute`
(src/bootstrap.go:297-336): walk the result slots with the running result
index `i` and output index `outIdx`, skip error indices, store each value
under the corresponding declared output key, and append the value's
cleanup when it is valid, not a nil reference, and `Cleanable`.
(A `Slot.err` at a non-error index cannot occur for a reflected function
and is left as a no-op.) -/
def storeLoop (errIdxs : List Nat) (outputs : List Nat) :
    List Slot → Nat → Nat → ExecSt → ExecSt
  | [], _, _, s => s
  | r :: rs, i, outIdx, s =>
    if i ∈ errIdxs then storeLoop errIdxs outputs rs (i + 1) outIdx s
    else
      if houtl : outIdx < outputs.length then
        let outType := outputs.get ⟨outIdx, houtl⟩
        let s' :=
          match r with
          | .val v =>
            { values := (outType, v) :: s.values,
              cleanups := s.cleanups ++
                (if v.valid then
                  (if v.nilRef then []
                   else
                     match v.cleanable with
                     | some c => [c]
                     | none => [])
                 else []) }
          | .err _ => s
        storeLoop errIdxs outputs rs (i + 1) (outIdx + 1) s'
      else storeLoop errIdxs outputs rs (i + 1) outIdx s

/-- `Bootstrap.execute` (src/bootstrap.go:270-339).  `call` gives the
behaviour of each registered callable, keyed by the node's pointer
identity.  The middle component reports whether the callable was invoked
(`[p.id]`) — the ghost trace used to state execution-order properties. -/
def execute (call : Nat → List GoVal → List Slot) (p : dag.DNode) (s : ExecSt) :
    ExecSt × List Nat × Option ExecErr :=
  match gatherArgs s.values p.inputs with
  | .error e => (s, [], some e)
  | .ok args =>
    let results := call p.id args
    match firstErr results p.errorIndices with
    | some e => (s, [p.id], some (.constructor e))
    | none => (storeLoop p.errorIndices p.outputs results 0 0 s, [p.id], none)

/-- The execution loop of `Bootstrap.Run` (src/bootstrap.go:90-96):
execute the sorted nodes in order, stopping at the first error. -/
def runExec (call : Nat → List GoVal → List Slot) :
    List dag.DNode → ExecSt → ExecSt × List Nat × Option ExecErr
  | [], s => (s, [], none)
  | p :: ps, s =>
    match execute call p s with
    | (s', tr, some e) => (s', tr, some e)
    | (s', tr, none) =>
      match runExec call ps s' with
      | (s'', tr', r) => (s'', tr ++ tr', r)

/-- `Bootstrap.Run` (src/bootstrap.go:77-99): return the stored
registration error if any, resolve, then execute.  The middle component
is the ghost trace of invoked callables. -/
def Run (call : Nat → List GoVal → List Slot) (b : Boot) :
    Boot × List Nat × Option RunErr :=
  match b.err with
  | some e => (b, [], some (.reg e))
  | none =>
    match dag.Resolve b.providers with
    | .error e => (b, [], some (.dagE e))
    | .ok sorted =>
      match runExec call sorted ⟨b.values, b.cleanups⟩ with
      | (s', tr, r) =>
        ({ b with values := s'.values, cleanups := s'.cleanups }, tr,
         r.map .exec)

/-- The teardown loop of `Bootstrap.Cleanup` (src/bootstrap.go:101-120):
call the registered cleanups in reverse registration order, collecting
failures.  Returns the ghost trace of invoked cleanup ids and the
collected error list in invocation order. -/
def cleanupGo : List Cleanup0 → List Nat × List String
  | [] => ([], [])
  | c :: rest =>
    match cleanupGo rest with
    | (tr, es) =>
      (tr ++ [c.cid],
       es ++ (match c.retErr with | some e => [e] | none => []))

/-- `Bootstrap.Cleanup` (src/bootstrap.go:101-120) minus the context
cancellation: run all cleanups in reverse order and aggregate the
failures into one error, or return nil when none failed. -/
def Cleanup (b : Boot) : List Nat × Option (List String) :=
  match cleanupGo b.cleanups with
  | (tr, es) => (tr, if es.isEmpty then none else some es)

end BS

/-! ### Lemmas about the association-list map operations -/

namespace dag

theorem lookupN_eraseKey_ne {α : Type} (a a' : Nat) (l : List (Nat × α)) (h : a' ≠ a) :
    lookupN a' (eraseKey a l) = lookupN a' l := by
  induction l with
  | nil => rfl
  | cons p rest ih =>
    cases p with
    | mk b v =>
      have haa' : ¬ (a = a') := fun hc => h hc.symm
      by_cases hba : b = a
      · have hba' : b ≠ a' := by rw [hba]; exact fun hc => h hc.symm
        simp [eraseKey, hba, lookupN, hba', haa', ih]
      · by_cases hba' : b = a'
        · simp [eraseKey, hba, lookupN, hba', h, ih]
        · simp [eraseKey, hba, lookupN, hba', ih]

theorem lookupN_eraseKey_self {α : Type} (a : Nat) (l : List (Nat × α)) :
    lookupN a (eraseKey a l) = none := by
  induction l with
  | nil => rfl
  | cons p rest ih =>
    cases p with
    | mk b v =>
      by_cases hba : b = a
      · simp [eraseKey, hba, ih]
      · simp [eraseKey, hba, lookupN, ih]

theorem eraseKey_eq_self_of_lookupN_none {α : Type} (a : Nat) (l : List (Nat × α))
    (h : lookupN a l = none) : eraseKey a l = l := by
  induction l with
  | nil => rfl
  | cons p rest ih =>
    cases p with
    | mk b v =>
      simp only [lookupN] at h
      by_cases hba : b = a
      · rw [if_pos hba] at h; exact absurd h (by simp)
      · rw [if_neg hba] at h
        simp [eraseKey, hba, ih h]

theorem lookupN_mem {α : Type} {a : Nat} {v : α} {l : List (Nat × α)}
    (h : lookupN a l = some v) : (a, v) ∈ l := by
  induction l with
  | nil => simp [lookupN] at h
  | cons p rest ih =>
    cases p with
    | mk b w =>
      simp only [lookupN] at h
      by_cases hba : b = a
      · rw [if_pos hba] at h
        subst hba
        injection h with h
        subst h
        exact List.mem_cons_self _ _
      · rw [if_neg hba] at h
        exact List.mem_cons_of_mem _ (ih h)

/-! ### Step 1: producer-map lemmas -/

theorem insertOutputs_lookup {n : DNode} :
    ∀ (ks : List Nat) (acc acc' : List (Nat × DNode)),
      insertOutputs n ks acc = .ok acc' →
      ∀ k m, lookupN k acc' = some m → lookupN k acc = some m ∨ (m = n ∧ k ∈ ks)
  | [], acc, acc', h => by
    simp only [insertOutputs, Except.ok.injEq] at h
    subst h
    exact fun k m hm => Or.inl hm
  | k0 :: ks, acc, acc', h => by
    intro k m hm
    simp only [insertOutputs] at h
    cases hl : lookupN k0 acc with
    | some existing => rw [hl] at h; exact absurd h (by simp)
    | none =>
      rw [hl] at h
      rcases insertOutputs_lookup ks _ _ h k m hm with h' | h'
      · simp only [lookupN] at h'
        by_cases hk : k0 = k
        · rw [if_pos hk] at h'
          right
          exact ⟨(Option.some.inj h').symm, List.mem_cons.mpr (Or.inl hk.symm)⟩
        · rw [if_neg hk] at h'
          exact Or.inl h'
      · exact Or.inr ⟨h'.1, List.mem_cons_of_mem _ h'.2⟩

theorem insertOutputs_preserve {n : DNode} :
    ∀ (ks : List Nat) (acc acc' : List (Nat × DNode)),
      insertOutputs n ks acc = .ok acc' →
      ∀ k m, lookupN k acc = some m → lookupN k acc' = some m
  | [], acc, acc', h => by
    simp only [insertOutputs, Except.ok.injEq] at h
    subst h
    exact fun _ _ hm => hm
  | k0 :: ks, acc, acc', h => by
    intro k m hm
    simp only [insertOutputs] at h
    cases hl : lookupN k0 acc with
    | some existing => rw [hl] at h; exact absurd h (by simp)
    | none =>
      rw [hl] at h
      refine insertOutputs_preserve ks _ _ h k m ?_
      have hk : k0 ≠ k := fun hc => by rw [hc] at hl; rw [hl] at hm; exact absurd hm (by simp)
      simp [lookupN, hk, hm]

theorem insertOutputs_covers {n : DNode} :
    ∀ (ks : List Nat) (acc acc' : List (Nat × DNode)),
      insertOutputs n ks acc = .ok acc' →
      ∀ k ∈ ks, ∃ m, lookupN k acc' = some m
  | [], _, _, _ => by intro k hk; simp at hk
  | k0 :: ks, acc, acc', h => by
    intro k hk
    simp only [insertOutputs] at h
    cases hl : lookupN k0 acc with
    | some existing => rw [hl] at h; exact absurd h (by simp)
    | none =>
      rw [hl] at h
      rcases List.mem_cons.mp hk with hk | hk
      · subst hk
        refine ⟨n, insertOutputs_preserve ks _ _ h k n ?_⟩
        simp [lookupN]
      · exact insertOutputs_covers ks _ _ h k hk

theorem buildProducers_preserve :
    ∀ (ns : List DNode) (acc res : List (Nat × DNode)),
      buildProducers ns acc = .ok res →
      ∀ k m, lookupN k acc = some m → lookupN k res = some m
  | [], acc, res, h => by
    simp only [buildProducers, Except.ok.injEq] at h
    subst h
    exact fun _ _ hm => hm
  | n :: ns, acc, res, h => by
    intro k m hm
    simp only [buildProducers] at h
    cases hio : insertOutputs n n.outputs acc with
    | error e => rw [hio] at h; exact absurd h (by simp)
    | ok acc' =>
      rw [hio] at h
      exact buildProducers_preserve ns _ _ h k m (insertOutputs_preserve _ _ _ hio k m hm)

theorem buildProducers_lookup :
    ∀ (ns : List DNode) (acc res : List (Nat × DNode)),
      buildProducers ns acc = .ok res →
      ∀ k m, lookupN k res = some m →
        lookupN k acc = some m ∨ (m ∈ ns ∧ k ∈ m.outputs)
  | [], acc, res, h => by
    simp only [buildProducers, Except.ok.injEq] at h
    subst h
    exact fun _ _ hm => Or.inl hm
  | n :: ns, acc, res, h => by
    intro k m hm
    simp only [buildProducers] at h
    cases hio : insertOutputs n n.outputs acc with
    | error e => rw [hio] at h; exact absurd h (by simp)
    | ok acc' =>
      rw [hio] at h
      rcases buildProducers_lookup ns _ _ h k m hm with h' | h'
      · rcases insertOutputs_lookup _ _ _ hio k m h' with h'' | h''
        · exact Or.inl h''
        · exact Or.inr ⟨by simp [h''.1], by rw [h''.1]; exact h''.2⟩
      · exact Or.inr ⟨List.mem_cons_of_mem _ h'.1, h'.2⟩

theorem buildProducers_covers :
    ∀ (ns : List DNode) (acc res : List (Nat × DNode)),
      buildProducers ns acc = .ok res →
      ∀ n ∈ ns, ∀ k ∈ n.outputs, ∃ m, lookupN k res = some m
  | [], _, _, _ => by intro n hn; simp at hn
  | n0 :: ns, acc, res, h => by
    intro n hn k hk
    simp only [buildProducers] at h
    cases hio : insertOutputs n0 n0.outputs acc with
    | error e => rw [hio] at h; exact absurd h (by simp)
    | ok acc' =>
      rw [hio] at h
      rcases List.mem_cons.mp hn with hn | hn
      · subst hn
        obtain ⟨m, hm⟩ := insertOutputs_covers _ _ _ hio k hk
        exact ⟨m, buildProducers_preserve ns _ _ h k m hm⟩
      · exact buildProducers_covers ns _ _ h n hn k hk

/-! ### Step 2: dependency-map lemmas -/

theorem depsInsert_mem_self (d : List (Nat × List DNode)) (a : Nat) (m : DNode) :
    m ∈ depsOfId (depsInsert d a m) a := by
  induction d with
  | nil => simp [depsInsert, depsOfId, lookupN]
  | cons p rest ih =>
    by_cases hpa : p.1 = a
    · cases p with
      | mk b l => simp only at hpa
                  simp [depsInsert, hpa, depsOfId, lookupN]
    · cases p with
      | mk b l =>
        simp only at hpa
        simp only [depsInsert, if_neg hpa]
        simpa [depsOfId, lookupN, hpa] using ih

theorem depsInsert_mono (d : List (Nat × List DNode)) (a : Nat) (m : DNode) :
    ∀ a' m', m' ∈ depsOfId d a' → m' ∈ depsOfId (depsInsert d a m) a' := by
  induction d with
  | nil => intro a' m' hm; simp [depsOfId, lookupN] at hm
  | cons p rest ih =>
    intro a' m' hm
    cases p with
    | mk b l =>
      by_cases hba : b = a
      · subst hba
        simp only [depsInsert, if_pos rfl]
        by_cases hba' : b = a'
        · subst hba'
          simp only [depsOfId, lookupN, if_pos rfl, Option.getD_some] at hm ⊢
          exact List.mem_append_left _ hm
        · simpa [depsOfId, lookupN, hba'] using hm
      · simp only [depsInsert, if_neg hba]
        by_cases hba' : b = a'
        · subst hba'
          simpa [depsOfId, lookupN] using hm
        · simp only [depsOfId, lookupN, if_neg hba'] at hm ⊢
          exact ih a' m' hm

theorem depsInsert_superset (d : List (Nat × List DNode)) (a : Nat) (m : DNode) :
    ∀ a' m', m' ∈ depsOfId (depsInsert d a m) a' →
      m' ∈ depsOfId d a' ∨ m' = m := by
  induction d with
  | nil =>
    intro a' m' hm
    by_cases hba' : a = a'
    · simp [depsInsert, depsOfId, lookupN, hba'] at hm
      exact Or.inr hm
    · simp [depsInsert, depsOfId, lookupN, hba'] at hm
  | cons p rest ih =>
    intro a' m' hm
    cases p with
    | mk b l =>
      by_cases hba : b = a
      · subst hba
        simp only [depsInsert, if_pos rfl] at hm
        by_cases hba' : b = a'
        · subst hba'
          simp only [depsOfId, lookupN, if_pos rfl, Option.getD_some] at hm ⊢
          rcases List.mem_append.mp hm with h | h
          · exact Or.inl h
          · simp at h; exact Or.inr h
        · simp only [depsOfId, lookupN, if_neg hba'] at hm ⊢
          exact Or.inl hm
      · simp only [depsInsert, if_neg hba] at hm
        by_cases hba' : b = a'
        · subst hba'
          simp only [depsOfId, lookupN, if_pos rfl] at hm ⊢
          exact Or.inl hm
        · simp only [depsOfId, lookupN, if_neg hba'] at hm ⊢
          exact ih a' m' hm

theorem addInputs_mono {prods : List (Nat × DNode)} {n : DNode} :
    ∀ (ks : List Nat) (d d' : List (Nat × List DNode)),
      addInputs prods n ks d = .ok d' →
      ∀ a m, m ∈ depsOfId d a → m ∈ depsOfId d' a
  | [], d, d', h => by
    simp only [addInputs, Except.ok.injEq] at h
    subst h
    exact fun _ _ hm => hm
  | k :: ks, d, d', h => by
    intro a m hm
    simp only [addInputs] at h
    cases hl : lookupN k prods with
    | none => rw [hl] at h; exact absurd h (by simp)
    | some prod =>
      rw [hl] at h
      exact addInputs_mono ks _ _ h a m (depsInsert_mono d n.id prod a m hm)

theorem addInputs_superset {prods : List (Nat × DNode)} {n : DNode} :
    ∀ (ks : List Nat) (d d' : List (Nat × List DNode)),
      addInputs prods n ks d = .ok d' →
      ∀ a m, m ∈ depsOfId d' a →
        m ∈ depsOfId d a ∨ ∃ k, lookupN k prods = some m
  | [], d, d', h => by
    simp only [addInputs, Except.ok.injEq] at h
    subst h
    exact fun _ _ hm => Or.inl hm
  | k :: ks, d, d', h => by
    intro a m hm
    simp only [addInputs] at h
    cases hl : lookupN k prods with
    | none => rw [hl] at h; exact absurd h (by simp)
    | some prod =>
      rw [hl] at h
      rcases addInputs_superset ks _ _ h a m hm with h' | h'
      · rcases depsInsert_superset d n.id prod a m h' with h'' | h''
        · exact Or.inl h''
        · exact Or.inr ⟨k, by rw [h'']; exact hl⟩
      · exact Or.inr h'

theorem addInputs_covers {prods : List (Nat × DNode)} {n : DNode} :
    ∀ (ks : List Nat) (d d' : List (Nat × List DNode)),
      addInputs prods n ks d = .ok d' →
      ∀ k ∈ ks, ∃ m, lookupN k prods = some m ∧ m ∈ depsOfId d' n.id
  | [], _, _, _ => by intro k hk; simp at hk
  | k0 :: ks, d, d', h => by
    intro k hk
    simp only [addInputs] at h
    cases hl : lookupN k0 prods with
    | none => rw [hl] at h; exact absurd h (by simp)
    | some prod =>
      rw [hl] at h
      rcases List.mem_cons.mp hk with hk | hk
      · subst hk
        exact ⟨prod, hl,
          addInputs_mono ks _ _ h n.id prod (depsInsert_mem_self d n.id prod)⟩
      · exact addInputs_covers ks _ _ h k hk

theorem addInputs_ok_of_all_found {prods : List (Nat × DNode)} {n : DNode} :
    ∀ (ks : List Nat) (d : List (Nat × List DNode)),
      (∀ k ∈ ks, ∃ m, lookupN k prods = some m) →
      ∃ d', addInputs prods n ks d = .ok d'
  | [], d, _ => ⟨d, rfl⟩
  | k :: ks, d, hall => by
    obtain ⟨m, hm⟩ := hall k (by simp)
    simp only [addInputs, hm]
    exact addInputs_ok_of_all_found ks _ (fun k' hk' => hall k' (List.mem_cons_of_mem _ hk'))

theorem buildDeps_mono {prods : List (Nat × DNode)} :
    ∀ (ns : List DNode) (d d' : List (Nat × List DNode)),
      buildDeps prods ns d = .ok d' →
      ∀ a m, m ∈ depsOfId d a → m ∈ depsOfId d' a
  | [], d, d', h => by
    simp only [buildDeps, Except.ok.injEq] at h
    subst h
    exact fun _ _ hm => hm
  | n :: ns, d, d', h => by
    intro a m hm
    simp only [buildDeps] at h
    cases hio : addInputs prods n n.inputs d with
    | error e => rw [hio] at h; exact absurd h (by simp)
    | ok d1 =>
      rw [hio] at h
      exact buildDeps_mono ns _ _ h a m (addInputs_mono _ _ _ hio a m hm)

theorem buildDeps_superset {prods : List (Nat × DNode)} :
    ∀ (ns : List DNode) (d d' : List (Nat × List DNode)),
      buildDeps prods ns d = .ok d' →
      ∀ a m, m ∈ depsOfId d' a →
        m ∈ depsOfId d a ∨ ∃ k, lookupN k prods = some m
  | [], d, d', h => by
    simp only [buildDeps, Except.ok.injEq] at h
    subst h
    exact fun _ _ hm => Or.inl hm
  | n :: ns, d, d', h => by
    intro a m hm
    simp only [buildDeps] at h
    cases hio : addInputs prods n n.inputs d with
    | error e => rw [hio] at h; exact absurd h (by simp)
    | ok d1 =>
      rw [hio] at h
      rcases buildDeps_superset ns _ _ h a m hm with h' | h'
      · exact addInputs_superset _ _ _ hio a m h'
      · exact Or.inr h'

theorem buildDeps_covers {prods : List (Nat × DNode)} :
    ∀ (ns : List DNode) (d d' : List (Nat × List DNode)),
      buildDeps prods ns d = .ok d' →
      ∀ n ∈ ns, ∀ k ∈ n.inputs,
        ∃ m, lookupN k prods = some m ∧ m ∈ depsOfId d' n.id
  | [], _, _, _ => by intro n hn; simp at hn
  | n0 :: ns, d, d', h => by
    intro n hn k hk
    simp only [buildDeps] at h
    cases hio : addInputs prods n0 n0.inputs d with
    | error e => rw [hio] at h; exact absurd h (by simp)
    | ok d1 =>
      rw [hio] at h
      rcases List.mem_cons.mp hn with hn | hn
      · subst hn
        obtain ⟨m, hm, hmem⟩ := addInputs_covers _ _ _ hio k hk
        exact ⟨m, hm, buildDeps_mono ns _ _ h n.id m hmem⟩
      · exact buildDeps_covers ns _ _ h n hn k hk

theorem addInputs_error_missing {prods : List (Nat × DNode)} {n : DNode} :
    ∀ (ks : List Nat) (d : List (Nat × List DNode)) {e : DagError},
      addInputs prods n ks d = .error e →
      ∃ k ∈ ks, lookupN k prods = none ∧ e = .missingDependency k n.label
  | [], d, e, h => by simp [addInputs] at h
  | k :: ks, d, e, h => by
    simp only [addInputs] at h
    cases hl : lookupN k prods with
    | none =>
      rw [hl] at h
      exact ⟨k, by simp, hl, by injection h with h'; rw [← h']⟩
    | some prod =>
      rw [hl] at h
      obtain ⟨k', hk', hl', he⟩ := addInputs_error_missing ks _ h
      exact ⟨k', List.mem_cons_of_mem _ hk', hl', he⟩

theorem buildDeps_error_missing {prods : List (Nat × DNode)} :
    ∀ (ns : List DNode) (d : List (Nat × List DNode)) {e : DagError},
      buildDeps prods ns d = .error e →
      ∃ n ∈ ns, ∃ k ∈ n.inputs, lookupN k prods = none ∧
        e = .missingDependency k n.label
  | [], d, e, h => by simp [buildDeps] at h
  | n :: ns, d, e, h => by
    simp only [buildDeps] at h
    cases hio : addInputs prods n n.inputs d with
    | error e' =>
      rw [hio] at h
      injection h with h'
      obtain ⟨k, hk, hl, he⟩ := addInputs_error_missing _ _ hio
      exact ⟨n, by simp, k, hk, hl, by rw [← h']; exact he⟩
    | ok d1 =>
      rw [hio] at h
      obtain ⟨n', hn', rest⟩ := buildDeps_error_missing ns _ h
      exact ⟨n', List.mem_cons_of_mem _ hn', rest⟩

theorem buildDeps_fails_of_missing {prods : List (Nat × DNode)} :
    ∀ (ns : List DNode) (d : List (Nat × List DNode)),
      (∃ n ∈ ns, ∃ k ∈ n.inputs, lookupN k prods = none) →
      ∃ e, buildDeps prods ns d = .error e
  | [], _, h => by simp at h
  | n :: ns, d, h => by
    obtain ⟨n', hn', k, hk, hl⟩ := h
    simp only [buildDeps]
    cases hio : addInputs prods n n.inputs d with
    | error e => exact ⟨e, rfl⟩
    | ok d1 =>
      rcases List.mem_cons.mp hn' with hn' | hn'
      · subst hn'
        obtain ⟨m, hm, _⟩ := addInputs_covers _ _ _ hio k hk
        rw [hl] at hm
        exact absurd hm (by simp)
      · exact buildDeps_fails_of_missing ns d1 ⟨n', hn', k, hk, hl⟩

end dag

/-! ### Lemmas about the execution engine and cleanup loop -/

namespace BS

theorem cleanupGo_trace : ∀ cl : List Cleanup0,
    (cleanupGo cl).1 = (cl.map Cleanup0.cid).reverse
  | [] => rfl
  | c :: rest => by
    simp only [cleanupGo, cleanupGo_trace rest, List.map_cons, List.reverse_cons]

theorem cleanupGo_errs : ∀ cl : List Cleanup0,
    (cleanupGo cl).2 = cl.reverse.filterMap Cleanup0.retErr
  | [] => rfl
  | c :: rest => by
    simp only [cleanupGo, cleanupGo_errs rest, List.reverse_cons, List.filterMap_append]
    cases hc : c.retErr <;> simp [List.filterMap, hc]

theorem execute_constructor_err (call : Nat → List GoVal → List Slot)
    (p : dag.DNode) (s : ExecSt) (args : List GoVal) (e : String)
    (hg : gatherArgs s.values p.inputs = .ok args)
    (he : firstErr (call p.id args) p.errorIndices = some e) :
    execute call p s = (s, [p.id], some (.constructor e)) := by
  simp [execute, hg, he]

theorem runExec_append (call : Nat → List GoVal → List Slot) :
    ∀ (l1 l2 : List dag.DNode) (s : ExecSt),
      runExec call (l1 ++ l2) s =
        match runExec call l1 s with
        | (s1, tr1, some e) => (s1, tr1, some e)
        | (s1, tr1, none) =>
          match runExec call l2 s1 with
          | (s2, tr2, r) => (s2, tr1 ++ tr2, r)
  | [], l2, s => by
    rcases h2 : runExec call l2 s with ⟨s2, tr2, r2⟩
    simp [runExec, h2]
  | p :: l1, l2, s => by
    rcases hex : execute call p s with ⟨s', tr, r⟩
    cases r with
    | some e => simp [runExec, hex]
    | none =>
      simp only [List.cons_append, List.append_eq, runExec, hex]
      rw [runExec_append call l1 l2 s']
      rcases h1 : runExec call l1 s' with ⟨s1, tr1, r1⟩
      cases r1 with
      | some e => simp [h1]
      | none =>
        rcases h2 : runExec call l2 s1 with ⟨s2, tr2, r2⟩
        simp [h1, h2, List.append_assoc]

theorem runExec_ok_trace (call : Nat → List GoVal → List Slot) :
    ∀ (l : List dag.DNode) (s s' : ExecSt) (tr : List Nat),
      runExec call l s = (s', tr, none) → tr = l.map dag.DNode.id
  | [], s, s', tr, h => by
    simp only [runExec, Prod.mk.injEq] at h
    simp [← h.2.1]
  | p :: l, s, s', tr, h => by
    rcases hex : execute call p s with ⟨s1, tr1, r1⟩
    simp only [runExec, hex] at h
    cases r1 with
    | some e => simp at h
    | none =>
      rcases hrest : runExec call l s1 with ⟨s2, tr2, r2⟩
      simp only [hrest, Prod.mk.injEq] at h
      cases h.2.2
      have htr2 := runExec_ok_trace call l s1 s2 tr2 hrest
      have htr1 : tr1 = [p.id] := by
        cases hg : gatherArgs s.values p.inputs with
        | error e => simp [execute, hg] at hex
        | ok args =>
          cases hfe : firstErr (call p.id args) p.errorIndices with
          | some e => simp [execute, hg, hfe] at hex
          | none =>
            simp only [execute, hg, hfe, Prod.mk.injEq] at hex
            exact hex.2.1.symm
      rw [← h.2.1, htr1, htr2]
      simp

end BS

example :
    dag.Resolve [⟨0, "a", [], [1], []⟩, ⟨1, "b", [1], [2], []⟩] =
      .ok [⟨0, "a", [], [1], []⟩, ⟨1, "b", [1], [2], []⟩] := by decide

example :
    dag.Resolve [⟨1, "b", [1], [2], []⟩, ⟨0, "a", [], [1], []⟩] =
      .ok [⟨0, "a", [], [1], []⟩, ⟨1, "b", [1], [2], []⟩] := by decide

example :
    dag.Resolve [⟨0, "A", [2], [1], []⟩, ⟨1, "B", [1], [2], []⟩] =
      .error (.cycle ["A", "B", "A"]) := by decide

example :
    dag.Resolve [⟨0, "A", [1], [1], []⟩] = .error (.cycle ["A", "A"]) := by decide

example :
    dag.Resolve [⟨0, "f", [], [5, 5], []⟩] =
      .error (.duplicateProvider 5 "f" "f") := by decide

example :
    dag.Resolve [⟨0, "f", [9], [5], []⟩] =
      .error (.missingDependency 9 "f") := by decide

/-! ### Claim theorems -/

/-- C10: when a node's execution fails because a fallible return slot holds
a non-nil error, `execute` returns exactly the input state: none of the
failing node's return values enter the value cache and none of its cleanup
obligations are appended, since the error-slot check precedes the storage
loop. -/
theorem claim_C10_failing_node_no_state
    (call : Nat → List BS.GoVal → List BS.Slot) (p : dag.DNode) (s : BS.ExecSt)
    (args : List BS.GoVal) (e : String)
    (hg : BS.gatherArgs s.values p.inputs = .ok args)
    (he : BS.firstErr (call p.id args) p.errorIndices = some e) :
    BS.execute call p s = (s, [p.id], some (.constructor e)) :=
  BS.execute_constructor_err call p s args e hg he

/-- Witness for C10: a constructor with outputs `(error, value)` whose
first slot holds a non-nil error leaves the (nonempty) cache and cleanup
list of the container untouched. -/
theorem claim_C10_witness :
    BS.execute (fun _ _ => [.err (some "boom"), .val ⟨7, true, false, none⟩])
        ⟨3, "c", [], [4], [0]⟩ ⟨[(9, ⟨1, true, false, none⟩)], [⟨5, none⟩]⟩ =
      (⟨[(9, ⟨1, true, false, none⟩)], [⟨5, none⟩]⟩, [3], some (.constructor "boom")) :=
  claim_C10_failing_node_no_state _ _ _ [] "boom" rfl rfl

/-- C7: once `Add` has recorded a registration error, every further `Add`
is a no-op leaving the container unchanged, and `Run` returns that stored
error with no resolution, no execution trace, and an unchanged container. -/
theorem claim_C7_add_error_latch
    (call : Nat → List BS.GoVal → List BS.Slot) (b : BS.Boot) (e : BS.RegErr)
    (items : List BS.RegItem) (hb : b.err = some e) :
    BS.Add b items = b ∧ BS.Run call b = (b, [], some (.reg e)) := by
  constructor
  · simp [BS.Add, hb]
  · simp [BS.Run, hb]

/-- Witness for C7: a container that latched `notFuncOrPtr` ignores a
later valid registration and `Run` reports the stored error. -/
theorem claim_C7_witness :
    BS.Add ⟨[], [], [], [], 0, some .notFuncOrPtr⟩
        [.func ⟨1, "g", [], [], false, false⟩] =
      ⟨[], [], [], [], 0, some .notFuncOrPtr⟩ ∧
    BS.Run (fun _ _ => []) ⟨[], [], [], [], 0, some .notFuncOrPtr⟩ =
      (⟨[], [], [], [], 0, some .notFuncOrPtr⟩, [], some (.reg .notFuncOrPtr)) :=
  claim_C7_add_error_latch _ _ .notFuncOrPtr _ rfl

/-- C9: `Resolve` is deterministic — two runs on the same node list in the
same registration order give the same result.  (In the source all loops
iterate over slices, never over Go maps, so the resolver is a pure
function of the node list; the embedding reflects this.) -/
theorem claim_C9_resolve_deterministic
    (nodes : List dag.DNode) (r1 r2 : Except dag.DagError (List dag.DNode))
    (h1 : dag.Resolve nodes = r1) (h2 : dag.Resolve nodes = r2) : r1 = r2 :=
  h1 ▸ h2

/-- Witness for C9 at a two-node graph. -/
theorem claim_C9_witness :
    (Except.ok [(⟨0, "a", [], [1], []⟩ : dag.DNode), ⟨1, "b", [1], [2], []⟩] :
        Except dag.DagError (List dag.DNode)) =
      .ok [⟨0, "a", [], [1], []⟩, ⟨1, "b", [1], [2], []⟩] :=
  claim_C9_resolve_deterministic
    [⟨1, "b", [1], [2], []⟩, ⟨0, "a", [], [1], []⟩] _ _ rfl rfl

/-- C5: `Cleanup` invokes every registered obligation exactly once, in the
exact reverse of registration order, never stopping at a failure; it
returns an aggregate listing every individual failure when at least one
cleanup failed, and nil otherwise. -/
theorem claim_C5_cleanup_reverse_aggregate (b : BS.Boot) :
    (BS.Cleanup b).1 = (b.cleanups.map BS.Cleanup0.cid).reverse ∧
    ((BS.Cleanup b).2 = none ↔ ∀ c ∈ b.cleanups, c.retErr = none) ∧
    (∀ es, (BS.Cleanup b).2 = some es →
      es = b.cleanups.reverse.filterMap BS.Cleanup0.retErr ∧
      ∀ c ∈ b.cleanups, ∀ e, c.retErr = some e → e ∈ es) := by
  rcases hcg : BS.cleanupGo b.cleanups with ⟨tr, es⟩
  have h1 := BS.cleanupGo_trace b.cleanups
  have h2 := BS.cleanupGo_errs b.cleanups
  rw [hcg] at h1 h2
  simp only at h1 h2
  refine ⟨by simp [BS.Cleanup, hcg, h1], ?_, ?_⟩
  · simp only [BS.Cleanup, hcg]
    constructor
    · intro hnone
      by_cases hes : es.isEmpty
      · intro c hc
        rw [List.isEmpty_iff] at hes
        rw [hes] at h2
        have := (List.filterMap_eq_nil.mp h2.symm) c (by simpa using hc)
        exact this
      · simp [hes] at hnone
    · intro hall
      have : es = [] := by
        rw [h2, List.filterMap_eq_nil]
        intro c hc
        exact hall c (by simpa using hc)
      simp [this]
  · intro es' hes'
    simp only [BS.Cleanup, hcg] at hes'
    by_cases hes : es.isEmpty
    · simp [hes] at hes'
    · simp only [hes, if_false] at hes'
      injection hes' with hes'
      subst hes'
      refine ⟨h2, ?_⟩
      intro c hc e he
      rw [h2]
      exact List.mem_filterMap.mpr ⟨c, by simpa using hc, he⟩

/-- Witness for C5 at a container with one succeeding and one failing
cleanup. -/
theorem claim_C5_witness :
    (BS.Cleanup ⟨[], [], [⟨1, none⟩, ⟨2, some "x"⟩], [], 0, none⟩).1 =
        (([⟨1, none⟩, ⟨2, some "x"⟩] : List BS.Cleanup0).map BS.Cleanup0.cid).reverse ∧
    ((BS.Cleanup ⟨[], [], [⟨1, none⟩, ⟨2, some "x"⟩], [], 0, none⟩).2 = none ↔
      ∀ c ∈ ([⟨1, none⟩, ⟨2, some "x"⟩] : List BS.Cleanup0), c.retErr = none) ∧
    (∀ es, (BS.Cleanup ⟨[], [], [⟨1, none⟩, ⟨2, some "x"⟩], [], 0, none⟩).2 = some es →
      es = ([⟨1, none⟩, ⟨2, some "x"⟩] : List BS.Cleanup0).reverse.filterMap BS.Cleanup0.retErr ∧
      ∀ c ∈ ([⟨1, none⟩, ⟨2, some "x"⟩] : List BS.Cleanup0), ∀ e, c.retErr = some e → e ∈ es) :=
  claim_C5_cleanup_reverse_aggregate ⟨[], [], [⟨1, none⟩, ⟨2, some "x"⟩], [], 0, none⟩

/-- C2: if, in the resolved order, every node before `f` executes without
error and `f`'s fallible slots hold a non-nil error `e`, then `Run` stops
at `f`: it returns exactly `e` (as a constructor error), the nodes after
`f` are never invoked, and the value cache and cleanup obligations
registered by the nodes before `f` are kept, not rolled back. -/
theorem claim_C2_error_short_circuit
    (call : Nat → List BS.GoVal → List BS.Slot) (b : BS.Boot)
    (pre post sorted : List dag.DNode) (f : dag.DNode)
    (s1 : BS.ExecSt) (tr1 : List Nat) (args : List BS.GoVal) (e : String)
    (hb : b.err = none)
    (hres : dag.Resolve b.providers = .ok sorted)
    (hsplit : sorted = pre ++ f :: post)
    (hpre : BS.runExec call pre ⟨b.values, b.cleanups⟩ = (s1, tr1, none))
    (hg : BS.gatherArgs s1.values f.inputs = .ok args)
    (he : BS.firstErr (call f.id args) f.errorIndices = some e) :
    BS.Run call b =
      ({ b with values := s1.values, cleanups := s1.cleanups },
       tr1 ++ [f.id], some (.exec (.constructor e))) := by
  have hfail : BS.runExec call (f :: post) s1 = (s1, [f.id], some (.constructor e)) := by
    simp only [BS.runExec, BS.execute_constructor_err call f s1 args e hg he]
  have hall : BS.runExec call sorted ⟨b.values, b.cleanups⟩ =
      (s1, tr1 ++ [f.id], some (.constructor e)) := by
    rw [hsplit, BS.runExec_append, hpre]
    simp only [hfail]
  simp only [BS.Run, hb, hres, hall]
  rfl

/-- Witness for C2: `ok` runs first and registers a value plus a cleanup,
`bad` fails with "boom" in a middle fallible slot; the run stops with
"boom", `after` is not invoked, and `ok`'s cache entry and cleanup
survive. -/
theorem claim_C2_witness :
    BS.Run
      (fun i _ =>
        if i = 1 then [.val ⟨10, true, false, some ⟨10, none⟩⟩]
        else [.val ⟨20, true, false, none⟩, .err (some "boom"), .val ⟨21, true, false, none⟩])
      ⟨[⟨1, "ok", [], [1], []⟩, ⟨2, "bad", [1], [2, 3], [1]⟩, ⟨3, "after", [2], [], []⟩],
       [], [], [], 0, none⟩ =
      ({ providers := [⟨1, "ok", [], [1], []⟩, ⟨2, "bad", [1], [2, 3], [1]⟩,
            ⟨3, "after", [2], [], []⟩],
         values := [(1, ⟨10, true, false, some ⟨10, none⟩⟩)],
         cleanups := [⟨10, none⟩], functions := [], fresh := 0, err := none },
       [1, 2], some (.exec (.constructor "boom"))) :=
  claim_C2_error_short_circuit _ _
    [⟨1, "ok", [], [1], []⟩] [⟨3, "after", [2], [], []⟩] _ ⟨2, "bad", [1], [2, 3], [1]⟩
    ⟨[(1, ⟨10, true, false, some ⟨10, none⟩⟩)], [⟨10, none⟩]⟩ [1]
    [⟨10, true, false, some ⟨10, none⟩⟩] "boom" rfl rfl rfl rfl rfl rfl

/-- C6: (a) when the producer mapping succeeds and some node declares an
input key that no node in the list produces, `Resolve` fails with a
`MissingDependency` error naming an unresolved key and the node consuming
it (the error's key really has no producer and really is an input of the
named node); (b) whenever `Resolve` fails — for any reason — `Run`
returns that error before invoking any constructor, leaving the value
cache and the cleanup list unchanged. -/
theorem claim_C6_missing_dependency
    (call : Nat → List BS.GoVal → List BS.Slot)
    (nodes : List dag.DNode) (prods : List (Nat × dag.DNode))
    (n : dag.DNode) (k : Nat)
    (hp : dag.buildProducers nodes [] = .ok prods)
    (hn : n ∈ nodes) (hk : k ∈ n.inputs)
    (hnoprod : ∀ m ∈ nodes, k ∉ m.outputs) :
    (∃ k' n', dag.Resolve nodes = .error (.missingDependency k' n'.label) ∧
       n' ∈ nodes ∧ k' ∈ n'.inputs ∧ ∀ m ∈ nodes, k' ∉ m.outputs) ∧
    (∀ (b : BS.Boot) (e : dag.DagError), b.err = none →
       dag.Resolve b.providers = .error e →
       BS.Run call b = (b, [], some (.dagE e))) := by
  constructor
  · have hlook : dag.lookupN k prods = none := by
      cases hl : dag.lookupN k prods with
      | none => rfl
      | some m =>
        rcases dag.buildProducers_lookup nodes [] prods hp k m hl with h | h
        · exact absurd h (by simp [dag.lookupN])
        · exact absurd h.2 (hnoprod m h.1)
    obtain ⟨e, he⟩ := dag.buildDeps_fails_of_missing nodes [] ⟨n, hn, k, hk, hlook⟩
    obtain ⟨n', hn', k', hk', hl', hes⟩ := dag.buildDeps_error_missing nodes [] he
    refine ⟨k', n', ?_, hn', hk', ?_⟩
    · simp only [dag.Resolve, hp, he, hes]
    · intro m hm hkm
      obtain ⟨m', hm'⟩ := dag.buildProducers_covers nodes [] prods hp m hm k' hkm
      rw [hl'] at hm'
      exact Option.noConfusion hm'
  · intro b e hberr hres
    simp [BS.Run, hberr, hres]

/-- Witness for C6: a single node requiring key 9 that nothing produces;
`Resolve` reports the missing dependency and `Run` on such a container
returns it with no execution and an unchanged container. -/
theorem claim_C6_witness :
    (∃ k' n', dag.Resolve [(⟨0, "f", [9], [5], []⟩ : dag.DNode)] =
        .error (.missingDependency k' n'.label) ∧
       n' ∈ [(⟨0, "f", [9], [5], []⟩ : dag.DNode)] ∧ k' ∈ n'.inputs ∧
       ∀ m ∈ [(⟨0, "f", [9], [5], []⟩ : dag.DNode)], k' ∉ m.outputs) ∧
    (∀ (b : BS.Boot) (e : dag.DagError), b.err = none →
       dag.Resolve b.providers = .error e →
       BS.Run (fun _ _ => []) b = (b, [], some (.dagE e))) :=
  claim_C6_missing_dependency (fun _ _ => [])
    [⟨0, "f", [9], [5], []⟩] [(5, ⟨0, "f", [9], [5], []⟩)]
    ⟨0, "f", [9], [5], []⟩ 9 rfl (by decide) (by decide) (by decide)

/-! ### Characterization of duplicate-provider failures -/

namespace dag

theorem insertOutputs_ok_iff {n : DNode} :
    ∀ (ks : List Nat) (acc : List (Nat × DNode)),
      (∃ acc', insertOutputs n ks acc = .ok acc') ↔
        (ks.Nodup ∧ ∀ k ∈ ks, lookupN k acc = none)
  | [], acc => by simp [insertOutputs]
  | k0 :: ks, acc => by
    constructor
    · rintro ⟨acc', h⟩
      simp only [insertOutputs] at h
      cases hl : lookupN k0 acc with
      | some existing => rw [hl] at h; exact absurd h (by simp)
      | none =>
        rw [hl] at h
        obtain ⟨hnd, hall⟩ := (insertOutputs_ok_iff ks _).mp ⟨acc', h⟩
        have hk0 : k0 ∉ ks := by
          intro hc
          have := hall k0 hc
          simp [lookupN] at this
        refine ⟨List.nodup_cons.mpr ⟨hk0, hnd⟩, ?_⟩
        intro k hk
        rcases List.mem_cons.mp hk with hk | hk
        · subst hk; exact hl
        · have := hall k hk
          simp only [lookupN] at this
          by_cases hkk : k0 = k
          · rw [if_pos hkk] at this; exact absurd this (by simp)
          · rw [if_neg hkk] at this; exact this
    · rintro ⟨hnd, hall⟩
      have hl : lookupN k0 acc = none := hall k0 (by simp)
      simp only [insertOutputs, hl]
      refine (insertOutputs_ok_iff ks _).mpr ⟨(List.nodup_cons.mp hnd).2, ?_⟩
      intro k hk
      have hkk : k0 ≠ k := fun hc => (List.nodup_cons.mp hnd).1 (hc ▸ hk)
      simp [lookupN, hkk]
      exact hall k (List.mem_cons_of_mem _ hk)

theorem insertOutputs_domain {n : DNode} {ks : List Nat} {acc acc' : List (Nat × DNode)}
    (h : insertOutputs n ks acc = .ok acc') :
    ∀ k, lookupN k acc' = none ↔ (lookupN k acc = none ∧ k ∉ ks) := by
  intro k
  constructor
  · intro hnone
    constructor
    · cases hl : lookupN k acc with
      | none => rfl
      | some m =>
        rw [insertOutputs_preserve ks acc acc' h k m hl] at hnone
        exact Option.noConfusion hnone
    · intro hk
      obtain ⟨m, hm⟩ := insertOutputs_covers ks acc acc' h k hk
      rw [hm] at hnone
      exact Option.noConfusion hnone
  · rintro ⟨hacc, hks⟩
    cases hl : lookupN k acc' with
    | none => rfl
    | some m =>
      rcases insertOutputs_lookup ks acc acc' h k m hl with h' | h'
      · rw [hacc] at h'; exact Option.noConfusion h'
      · exact absurd h'.2 hks

theorem buildProducers_ok_iff :
    ∀ (ns : List DNode) (acc : List (Nat × DNode)),
      (∃ res, buildProducers ns acc = .ok res) ↔
        ((ns.map DNode.outputs).join.Nodup ∧
         ∀ k ∈ (ns.map DNode.outputs).join, lookupN k acc = none)
  | [], acc => by simp [buildProducers]
  | n :: ns, acc => by
    simp only [List.map_cons, List.join_cons, List.nodup_append, List.mem_append]
    cases hio : insertOutputs n n.outputs acc with
    | error e =>
      constructor
      · rintro ⟨res, h⟩
        simp only [buildProducers, hio] at h
        exact absurd h (by simp)
      · rintro ⟨⟨hnd, _, _⟩, hall⟩
        obtain ⟨acc', hok⟩ := (insertOutputs_ok_iff n.outputs acc).mpr
          ⟨hnd, fun k hk => hall k (Or.inl hk)⟩
        rw [hio] at hok
        exact absurd hok (by simp)
    | ok acc' =>
      have hdom := insertOutputs_domain hio
      obtain ⟨hnd0, hall0⟩ := (insertOutputs_ok_iff n.outputs acc).mp ⟨acc', hio⟩
      have hrec := buildProducers_ok_iff ns acc'
      constructor
      · rintro ⟨res, h⟩
        simp only [buildProducers, hio] at h
        obtain ⟨hnd', hall'⟩ := hrec.mp ⟨res, h⟩
        refine ⟨⟨hnd0, hnd', ?_⟩, ?_⟩
        · intro a ha hc
          exact ((hdom a).mp (hall' a hc)).2 ha
        intro k hk
        rcases hk with hk | hk
        · exact hall0 k hk
        · exact ((hdom k).mp (hall' k hk)).1
      · rintro ⟨⟨hnd1, hnd2, hdisj⟩, hall⟩
        obtain ⟨res, h⟩ := hrec.mpr ⟨hnd2, fun k hk =>
          (hdom k).mpr ⟨hall k (Or.inr hk), fun hc => hdisj hc hk⟩⟩
        exact ⟨res, by simp only [buildProducers, hio]; exact h⟩

theorem insertOutputs_error_naming {n : DNode} :
    ∀ (ks : List Nat) (acc : List (Nat × DNode)) {e : DagError},
      insertOutputs n ks acc = .error e →
      ∃ k m, e = .duplicateProvider k m.label n.label ∧ k ∈ ks ∧
        (lookupN k acc = some m ∨ m = n)
  | [], acc, e, h => by simp [insertOutputs] at h
  | k0 :: ks, acc, e, h => by
    simp only [insertOutputs] at h
    cases hl : lookupN k0 acc with
    | some existing =>
      rw [hl] at h
      injection h with h'
      exact ⟨k0, existing, h'.symm, by simp, Or.inl hl⟩
    | none =>
      rw [hl] at h
      obtain ⟨k, m, he, hk, hm⟩ := insertOutputs_error_naming ks _ h
      refine ⟨k, m, he, List.mem_cons_of_mem _ hk, ?_⟩
      rcases hm with hm | hm
      · simp only [lookupN] at hm
        by_cases hkk : k0 = k
        · rw [if_pos hkk] at hm
          exact Or.inr (Option.some.inj hm).symm
        · rw [if_neg hkk] at hm
          exact Or.inl hm
      · exact Or.inr hm

theorem buildProducers_error_naming :
    ∀ (ns : List DNode) (acc : List (Nat × DNode)) {e : DagError},
      buildProducers ns acc = .error e →
      ∃ k m1 m2, e = .duplicateProvider k m1.label m2.label ∧
        m2 ∈ ns ∧ k ∈ m2.outputs ∧
        (lookupN k acc = some m1 ∨ (m1 ∈ ns ∧ k ∈ m1.outputs))
  | [], acc, e, h => by simp [buildProducers] at h
  | n :: ns, acc, e, h => by
    simp only [buildProducers] at h
    cases hio : insertOutputs n n.outputs acc with
    | error e' =>
      rw [hio] at h
      injection h with h'
      subst h'
      obtain ⟨k, m, he, hk, hm⟩ := insertOutputs_error_naming n.outputs acc hio
      refine ⟨k, m, n, he, by simp, hk, ?_⟩
      rcases hm with hm | hm
      · exact Or.inl hm
      · exact Or.inr ⟨by simp [hm], by rw [hm]; exact hk⟩
    | ok acc' =>
      rw [hio] at h
      obtain ⟨k, m1, m2, he, hm2, hk2, hm1⟩ := buildProducers_error_naming ns acc' h
      refine ⟨k, m1, m2, he, List.mem_cons_of_mem _ hm2, hk2, ?_⟩
      rcases hm1 with hm1 | hm1
      · rcases insertOutputs_lookup n.outputs acc acc' hio k m1 hm1 with h' | h'
        · exact Or.inl h'
        · exact Or.inr ⟨by simp [h'.1], by rw [h'.1]; exact h'.2⟩
      · exact Or.inr ⟨List.mem_cons_of_mem _ hm1.1, hm1.2⟩

theorem foldE_error_shape {P : DagError → Prop} {f : DNode → σ → Except DagError σ}
    (hf : ∀ n st e, f n st = .error e → P e) :
    ∀ (l : List DNode) (st : σ) (e : DagError), foldE f l st = .error e → P e := by
  intro l
  induction l with
  | nil => intro st e h; simp [foldE] at h
  | cons n rest ih =>
    intro st e h
    simp only [foldE] at h
    cases hf' : f n st with
    | error e' => rw [hf'] at h; injection h with h'; exact h' ▸ hf n st e' hf'
    | ok st' => rw [hf'] at h; exact ih st' e h

theorem cvisit_error_shape (deps : List (Nat × List DNode)) :
    ∀ (fuel : Nat) (n : DNode) (st : CycSt) (e : DagError),
      cvisit deps fuel n st = .error e → (∃ p, e = .cycle p) ∨ e = .outOfFuel := by
  intro fuel
  induction fuel with
  | zero =>
    intro n st e h
    rw [cvisit] at h
    cases hl : lookupN n.id st.inStack with
    | some idx =>
      rw [hl] at h
      injection h with h'
      exact Or.inl ⟨_, h'.symm⟩
    | none =>
      rw [hl] at h
      by_cases hv : n.id ∈ st.visited
      · rw [if_pos hv] at h; exact absurd h (by simp)
      · rw [if_neg hv] at h
        injection h with h'
        exact Or.inr h'.symm
  | succ fuel ih =>
    intro n st e h
    rw [cvisit] at h
    cases hl : lookupN n.id st.inStack with
    | some idx =>
      rw [hl] at h
      injection h with h'
      exact Or.inl ⟨_, h'.symm⟩
    | none =>
      rw [hl] at h
      by_cases hv : n.id ∈ st.visited
      · rw [if_pos hv] at h; exact absurd h (by simp)
      · rw [if_neg hv] at h
        cases hfe : foldE (cvisit deps fuel) (depsOfId deps n.id)
            ⟨st.visited, (n.id, st.stack.length) :: st.inStack, st.stack ++ [n]⟩ with
        | error e' =>
          rw [hfe] at h
          injection h with h'
          exact h' ▸ foldE_error_shape (fun n' st' e'' h'' => ih n' st' e'' h'') _ _ e' hfe
        | ok st2 => rw [hfe] at h; exact absurd h (by simp)

theorem checkLoop_error_shape (deps : List (Nat × List DNode)) (fuel : Nat) :
    ∀ (l : List DNode) (st : CycSt) (e : DagError),
      checkLoop deps fuel l st = .error e → (∃ p, e = .cycle p) ∨ e = .outOfFuel := by
  intro l
  induction l with
  | nil => intro st e h; simp [checkLoop] at h
  | cons n rest ih =>
    intro st e h
    simp only [checkLoop] at h
    by_cases hv : n.id ∈ st.visited
    · rw [if_pos hv] at h; exact ih st e h
    · rw [if_neg hv] at h
      cases hc : cvisit deps fuel n st with
      | error e' =>
        rw [hc] at h
        injection h with h'
        exact h' ▸ cvisit_error_shape deps fuel n st e' hc
      | ok st' => rw [hc] at h; exact ih st' e h

theorem tvisit_error_shape (deps : List (Nat × List DNode)) :
    ∀ (fuel : Nat) (n : DNode) (st : TopoSt) (e : DagError),
      tvisit deps fuel n st = .error e → e = .outOfFuel := by
  intro fuel
  induction fuel with
  | zero =>
    intro n st e h
    rw [tvisit] at h
    by_cases hv : n.id ∈ st.visited
    · rw [if_pos hv] at h; exact absurd h (by simp)
    · rw [if_neg hv] at h
      injection h with h'
      exact h'.symm
  | succ fuel ih =>
    intro n st e h
    rw [tvisit] at h
    by_cases hv : n.id ∈ st.visited
    · rw [if_pos hv] at h; exact absurd h (by simp)
    · rw [if_neg hv] at h
      cases hfe : foldE (tvisit deps fuel) (depsOfId deps n.id) st with
      | error e' =>
        rw [hfe] at h
        injection h with h'
        exact h' ▸ foldE_error_shape (fun n' st' e'' h'' => ih n' st' e'' h'') _ _ e' hfe
      | ok st1 => rw [hfe] at h; exact absurd h (by simp)

theorem topoLoop_error_shape (deps : List (Nat × List DNode)) (fuel : Nat) :
    ∀ (l : List DNode) (st : TopoSt) (e : DagError),
      topoLoop deps fuel l st = .error e → e = .outOfFuel := by
  intro l
  induction l with
  | nil => intro st e h; simp [topoLoop] at h
  | cons n rest ih =>
    intro st e h
    simp only [topoLoop] at h
    by_cases hv : n.id ∈ st.visited
    · rw [if_pos hv] at h; exact ih st e h
    · rw [if_neg hv] at h
      cases hc : tvisit deps fuel n st with
      | error e' =>
        rw [hc] at h
        injection h with h'
        exact h' ▸ tvisit_error_shape deps fuel n st e' hc
      | ok st' => rw [hc] at h; exact ih st' e h

theorem topologicalSort_error_shape {nodes : List DNode} {deps : List (Nat × List DNode)}
    {e : DagError} (h : topologicalSort nodes deps = .error e) :
    (∃ p, e = .cycle p) ∨ e = .outOfFuel := by
  simp only [topologicalSort, checkCycles] at h
  cases hc : checkLoop deps (nodes.length + 1) nodes ⟨[], [], []⟩ with
  | error e' =>
    rw [hc] at h
    injection h with h'
    exact h' ▸ checkLoop_error_shape deps _ nodes _ e' hc
  | ok st =>
    rw [hc] at h
    simp only at h
    cases ht : topoLoop deps (nodes.length + 1) nodes ⟨[], []⟩ with
    | error e' =>
      rw [ht] at h
      injection h with h'
      exact Or.inr (h' ▸ topoLoop_error_shape deps _ nodes _ e' ht)
    | ok st' => rw [ht] at h; exact absurd h (by simp)

end dag

/-- Counterexample for C3 as stated: a single constructor whose two output
slots declare the same key makes `Resolve` fail with a DuplicateProvider
error, although the key never "already maps to a *different* Node" — the
list has only one node, so both named labels are the same node's.  The
source checks mere presence of the key, not that the prior producer is a
different node. -/
theorem claim_C3_counterexample :
    dag.Resolve [(⟨0, "f", [], [5, 5], []⟩ : dag.DNode)] =
      .error (.duplicateProvider 5 "f" "f") ∧
    ∀ m1 ∈ [(⟨0, "f", [], [5, 5], []⟩ : dag.DNode)],
      ∀ m2 ∈ [(⟨0, "f", [], [5, 5], []⟩ : dag.DNode)], m1 = m2 := by decide

/-- C3 (amended): `Resolve` fails with a DuplicateProvider error exactly
when the concatenated output-key declarations of the nodes contain a
duplicate key — whether contributed by two distinct nodes or by one node
declaring the same key twice; the error names the contested key and the
labels of two (not necessarily distinct) nodes declaring it.  In
particular, any container whose providers declare a duplicated output key
has `Run` fail with DuplicateProvider, regardless of registration order
and before any constructor executes. -/
theorem claim_C3_amended
    (call : Nat → List BS.GoVal → List BS.Slot)
    (nodes : List dag.DNode) (b : BS.Boot) :
    ((∃ k l1 l2, dag.Resolve nodes = .error (.duplicateProvider k l1 l2)) ↔
      ¬ (nodes.map dag.DNode.outputs).join.Nodup) ∧
    (∀ k l1 l2, dag.Resolve nodes = .error (.duplicateProvider k l1 l2) →
      ∃ m1 m2, m1 ∈ nodes ∧ m2 ∈ nodes ∧ k ∈ m1.outputs ∧ k ∈ m2.outputs ∧
        l1 = m1.label ∧ l2 = m2.label) ∧
    (b.err = none → ¬ (b.providers.map dag.DNode.outputs).join.Nodup →
      ∃ k l1 l2, BS.Run call b = (b, [], some (.dagE (.duplicateProvider k l1 l2)))) := by
  have key : ∀ (ns : List dag.DNode), ¬ (ns.map dag.DNode.outputs).join.Nodup →
      ∃ k l1 l2, dag.Resolve ns = .error (.duplicateProvider k l1 l2) := by
    intro ns hnd
    cases hbp : dag.buildProducers ns [] with
    | ok res =>
      exact absurd ((dag.buildProducers_ok_iff ns []).mp ⟨res, hbp⟩).1 hnd
    | error e =>
      obtain ⟨k, m1, m2, he, _⟩ := dag.buildProducers_error_naming ns [] hbp
      exact ⟨k, m1.label, m2.label, by simp only [dag.Resolve, hbp, he]⟩
  have fromResolve : ∀ (ns : List dag.DNode) k l1 l2,
      dag.Resolve ns = .error (.duplicateProvider k l1 l2) →
      dag.buildProducers ns [] = .error (.duplicateProvider k l1 l2) := by
    intro ns k l1 l2 h
    cases hbp : dag.buildProducers ns [] with
    | error e =>
      simp only [dag.Resolve, hbp] at h
      injection h with h'
      rw [h']
    | ok prods =>
      exfalso
      simp only [dag.Resolve, hbp] at h
      cases hbd : dag.buildDeps prods ns [] with
      | error e =>
        simp only [hbd] at h
        injection h with h'
        obtain ⟨_, _, _, _, _, he⟩ := dag.buildDeps_error_missing ns [] hbd
        rw [h'] at he
        exact absurd he (by simp)
      | ok deps =>
        simp only [hbd] at h
        rcases dag.topologicalSort_error_shape h with ⟨p, hp⟩ | hp <;> simp at hp
  refine ⟨⟨?_, fun hnd => key nodes hnd⟩, ?_, ?_⟩
  · rintro ⟨k, l1, l2, h⟩ hnd
    have hbp := fromResolve nodes k l1 l2 h
    obtain ⟨res, hok⟩ := (dag.buildProducers_ok_iff nodes []).mpr
      ⟨hnd, fun k' _ => by simp [dag.lookupN]⟩
    rw [hok] at hbp
    exact Except.noConfusion hbp
  · intro k l1 l2 h
    have hbp := fromResolve nodes k l1 l2 h
    obtain ⟨k', m1, m2, he, hm2, hk2, hm1⟩ := dag.buildProducers_error_naming nodes [] hbp
    rcases hm1 with hm1 | hm1
    · exact absurd hm1 (by simp [dag.lookupN])
    · injection he with he1 he2 he3
      exact ⟨m1, m2, hm1.1, hm2, he1 ▸ hm1.2, he1 ▸ hk2, he2, he3⟩
  · intro hberr hnd
    obtain ⟨k, l1, l2, h⟩ := key b.providers hnd
    exact ⟨k, l1, l2, by simp [BS.Run, hberr, h]⟩

/-- Witness for the amended C3: two distinct nodes both producing key 5;
the resolver fails naming both labels, and the self-duplicate case of the
counterexample also satisfies the duplicate-stream criterion. -/
theorem claim_C3_witness :
    ((∃ k l1 l2, dag.Resolve [(⟨0, "g", [], [5], []⟩ : dag.DNode), ⟨1, "h", [], [5], []⟩] =
        .error (.duplicateProvider k l1 l2)) ↔
      ¬ (([(⟨0, "g", [], [5], []⟩ : dag.DNode), ⟨1, "h", [], [5], []⟩].map
            dag.DNode.outputs).join.Nodup)) ∧
    (∀ k l1 l2, dag.Resolve [(⟨0, "g", [], [5], []⟩ : dag.DNode), ⟨1, "h", [], [5], []⟩] =
        .error (.duplicateProvider k l1 l2) →
      ∃ m1 m2, m1 ∈ [(⟨0, "g", [], [5], []⟩ : dag.DNode), ⟨1, "h", [], [5], []⟩] ∧
        m2 ∈ [(⟨0, "g", [], [5], []⟩ : dag.DNode), ⟨1, "h", [], [5], []⟩] ∧
        k ∈ m1.outputs ∧ k ∈ m2.outputs ∧ l1 = m1.label ∧ l2 = m2.label) ∧
    ((⟨[⟨0, "g", [], [5], []⟩, ⟨1, "h", [], [5], []⟩], [], [], [], 0, none⟩ : BS.Boot).err =
        none →
      ¬ (((⟨[⟨0, "g", [], [5], []⟩, ⟨1, "h", [], [5], []⟩], [], [], [], 0, none⟩ :
            BS.Boot).providers.map dag.DNode.outputs).join.Nodup) →
      ∃ k l1 l2, BS.Run (fun _ _ => [])
          ⟨[⟨0, "g", [], [5], []⟩, ⟨1, "h", [], [5], []⟩], [], [], [], 0, none⟩ =
        (⟨[⟨0, "g", [], [5], []⟩, ⟨1, "h", [], [5], []⟩], [], [], [], 0, none⟩, [],
         some (.dagE (.duplicateProvider k l1 l2)))) :=
  claim_C3_amended (fun _ _ => [])
    [⟨0, "g", [], [5], []⟩, ⟨1, "h", [], [5], []⟩]
    ⟨[⟨0, "g", [], [5], []⟩, ⟨1, "h", [], [5], []⟩], [], [], [], 0, none⟩

/-! ### Verification of `checkCycles` -/

namespace dag

theorem stack_ids_nodup {st : CycSt}
    (hS1 : ∀ (j : Nat) (x : DNode), st.stack[j]? = some x → lookupN x.id st.inStack = some j) :
    (st.stack.map DNode.id).Nodup := by
  rw [List.nodup_iff_injective_get]
  intro i j hij
  simp only [List.get_eq_getElem, List.getElem_map] at hij
  have hi : i.1 < st.stack.length := by
    have := i.2; simpa using this
  have hj : j.1 < st.stack.length := by
    have := j.2; simpa using this
  have h1 := hS1 i.1 (st.stack[i.1]) (by simp [List.getElem?_eq_getElem hi])
  have h2 := hS1 j.1 (st.stack[j.1]) (by simp [List.getElem?_eq_getElem hj])
  rw [hij] at h1
  rw [h1] at h2
  exact Fin.ext (Option.some.inj h2)

theorem visited_closed_reach {deps : List (Nat × List DNode)} {V : List Nat}
    (hcl : ∀ a ∈ V, ∀ m ∈ depsOfId deps a, m.id ∈ V) :
    ∀ b c, Relation.ReflTransGen (stepD deps) b c → b ∈ V → c ∈ V := by
  intro b c h
  induction h with
  | refl => exact id
  | tail hab hbc ih =>
    intro hbV
    obtain ⟨m, hm, hmid⟩ := List.mem_map.mp hbc
    exact hmid ▸ hcl _ (ih hbV) m hm

theorem cvisit_cycle_found {nodes : List DNode} {deps : List (Nat × List DNode)}
    (hnd : (nodes.map DNode.id).Nodup) {n : DNode} {st : CycSt} {idx : Nat}
    (hn : n ∈ nodes) (hinv : CycInv nodes deps st)
    (hlink : ∀ z, st.stack.getLast? = some z → n ∈ depsOfId deps z.id)
    (hidx : lookupN n.id st.inStack = some idx) :
    CycErrSpec nodes deps (.cycle (((st.stack.drop idx) ++ [n]).map DNode.label)) := by
  obtain ⟨hS2, hS1, hS3, hS4, hS5, hS6, hS7⟩ := hinv
  obtain ⟨x, hx, hxid⟩ := hS2 n.id idx hidx
  have hidxlt : idx < st.stack.length := (List.getElem?_eq_some_iff.mp hx).1
  have hxmem : x ∈ st.stack := by
    obtain ⟨h1, h2⟩ := List.getElem?_eq_some_iff.mp hx
    exact h2 ▸ List.getElem_mem h1
  have hxn : x = n := List.inj_on_of_nodup_map hnd (hS4 x hxmem) hn hxid
  have hdropne : st.stack.drop idx ≠ [] := by
    simp only [ne_eq, List.drop_eq_nil_iff]
    omega
  refine ⟨st.stack.drop idx ++ [n], rfl, ?_, ?_, ?_, ?_⟩
  · have h1 : 1 ≤ (st.stack.drop idx).length := by
      rw [List.length_drop]; omega
    simp only [List.length_append, List.length_cons, List.length_nil]
    omega
  · rw [List.head?_append_of_ne_nil _ hdropne, List.head?_drop, List.getLast?_concat, hx, hxn]
  · refine List.chain'_append.mpr ⟨hS3.drop idx, List.chain'_singleton n, ?_⟩
    intro z hz y hy
    simp only [List.head?_cons, Option.mem_def, Option.some.injEq] at hy
    subst hy
    have hlast : (st.stack.drop idx).getLast? = st.stack.getLast? := by
      rw [List.getLast?_drop, if_neg (by omega)]
    rw [Option.mem_def, hlast] at hz
    exact hlink z hz
  · intro y hy
    rcases List.mem_append.mp hy with h | h
    · exact hS4 y (List.drop_subset idx st.stack h)
    · simp only [List.mem_singleton] at h
      subst h
      exact hn

end dag

namespace dag

theorem cvisit_push_inv {nodes : List DNode} {deps : List (Nat × List DNode)}
    {n : DNode} {st : CycSt}
    (hn : n ∈ nodes) (hinv : CycInv nodes deps st)
    (hlook : lookupN n.id st.inStack = none)
    (hv : n.id ∉ st.visited)
    (hlink : ∀ z, st.stack.getLast? = some z → n ∈ depsOfId deps z.id) :
    CycInv nodes deps
      ⟨st.visited, (n.id, st.stack.length) :: st.inStack, st.stack ++ [n]⟩ := by
  obtain ⟨hS2, hS1, hS3, hS4, hS5, hS6, hS7⟩ := hinv
  refine ⟨?_, ?_, ?_, ?_, hS5, hS6, ?_⟩
  · intro a j hj
    simp only [lookupN] at hj
    by_cases han : n.id = a
    · rw [if_pos han] at hj
      injection hj with hj
      subst hj
      exact ⟨n, List.getElem?_concat_length _ _, han⟩
    · rw [if_neg han] at hj
      obtain ⟨x, hx, hxa⟩ := hS2 a j hj
      have hjlt := (List.getElem?_eq_some_iff.mp hx).1
      exact ⟨x, by simp only; rw [List.getElem?_append_left hjlt]; exact hx, hxa⟩
  · intro j x hx
    simp only at hx
    by_cases hj : j < st.stack.length
    · rw [List.getElem?_append_left hj] at hx
      have h1 := hS1 j x hx
      have hxn : ¬ (n.id = x.id) := by
        intro hc
        rw [← hc] at h1
        rw [hlook] at h1
        exact Option.noConfusion h1
      simp only [lookupN, if_neg hxn]
      exact h1
    · have hlen : j < st.stack.length + 1 := by
        have := (List.getElem?_eq_some_iff.mp hx).1
        simpa [List.length_append] using this
      have hjeq : j = st.stack.length := by omega
      subst hjeq
      rw [List.getElem?_concat_length] at hx
      injection hx with hx
      subst hx
      simp [lookupN]
  · refine List.chain'_append.mpr ⟨hS3, List.chain'_singleton n, ?_⟩
    intro z hz y hy
    simp only [List.head?_cons, Option.mem_def, Option.some.injEq] at hy
    subst hy
    rw [Option.mem_def] at hz
    exact hlink z hz
  · intro x hx
    rcases List.mem_append.mp hx with h | h
    · exact hS4 x h
    · simp only [List.mem_singleton] at h
      subst h
      exact hn
  · intro a j hj
    simp only [lookupN] at hj
    by_cases han : n.id = a
    · subst han
      exact hv
    · rw [if_neg han] at hj
      exact hS7 a j hj

theorem cvisit_pop_inv {nodes : List DNode} {deps : List (Nat × List DNode)}
    {n : DNode} {st st2 : CycSt}
    (hinv : CycInv nodes deps st)
    (hlook : lookupN n.id st.inStack = none)
    (hinv2 : CycInv nodes deps st2)
    (hstk2 : st2.stack = st.stack ++ [n])
    (hins2 : st2.inStack = (n.id, st.stack.length) :: st.inStack)
    (hcov : ∀ m ∈ depsOfId deps n.id, m.id ∈ st2.visited) :
    CycInv nodes deps ⟨n.id :: st2.visited, eraseKey n.id st2.inStack, st2.stack.dropLast⟩ ∧
    st2.stack.dropLast = st.stack ∧ eraseKey n.id st2.inStack = st.inStack := by
  obtain ⟨hS2, hS1, hS3, hS4, hS5, hS6, hS7⟩ := hinv
  obtain ⟨hS2', hS1', hS3', hS4', hS5', hS6', hS7'⟩ := hinv2
  have hstk : st2.stack.dropLast = st.stack := by
    rw [hstk2]
    exact List.dropLast_concat
  have hins : eraseKey n.id st2.inStack = st.inStack := by
    rw [hins2]
    simp only [eraseKey, if_pos rfl]
    exact eraseKey_eq_self_of_lookupN_none n.id st.inStack hlook
  have hnv2 : n.id ∉ st2.visited :=
    hS7' n.id st.stack.length (by rw [hins2]; simp [lookupN])
  refine ⟨⟨?_, ?_, ?_, ?_, ?_, ?_, ?_⟩, hstk, hins⟩
  · intro a j hj
    simp only [hins, hstk] at hj ⊢
    exact hS2 a j hj
  · intro j x hx
    simp only [hins, hstk] at hx ⊢
    exact hS1 j x hx
  · simp only [hstk]
    exact hS3
  · intro x hx
    simp only [hstk] at hx
    exact hS4 x hx
  · intro a ha m hm
    simp only [List.mem_cons] at ha ⊢
    rcases ha with ha | ha
    · subst ha
      exact Or.inr (hcov m hm)
    · exact Or.inr (hS5' a ha m hm)
  · intro a ha
    simp only [List.mem_cons] at ha
    rcases ha with ha | ha
    · subst ha
      intro hcyc
      obtain ⟨b, hb, hba⟩ := Relation.TransGen.head'_iff.mp hcyc
      obtain ⟨m, hm, hmb⟩ := List.mem_map.mp hb
      have hbv : b ∈ st2.visited := hmb ▸ hcov m hm
      exact hnv2 (visited_closed_reach hS5' b n.id hba hbv)
    · exact hS6' a ha
  · intro a j hj
    simp only [hins] at hj
    have han : ¬ (n.id = a) := by
      intro hc
      rw [← hc, hlook] at hj
      exact Option.noConfusion hj
    have hj2 : lookupN a st2.inStack = some j := by
      rw [hins2]
      simp only [lookupN, if_neg han]
      exact hj
    have := hS7' a j hj2
    simp only [List.mem_cons, not_or]
    exact ⟨fun hc => han hc.symm, this⟩

end dag

namespace dag

theorem foldE_cvisit_spec (nodes : List DNode) (deps : List (Nat × List DNode))
    (fuel : Nat)
    (hA : ∀ (n : DNode) (st : CycSt), n ∈ nodes → CycInv nodes deps st →
      (∀ z, st.stack.getLast? = some z → n ∈ depsOfId deps z.id) →
      nodes.length + 1 ≤ fuel + st.stack.length →
      (match cvisit deps fuel n st with
       | .ok st' => CycInv nodes deps st' ∧ st'.stack = st.stack ∧
           st'.inStack = st.inStack ∧ (∀ a ∈ st.visited, a ∈ st'.visited) ∧
           n.id ∈ st'.visited
       | .error e => CycErrSpec nodes deps e)) :
    ∀ (l : List DNode) (st : CycSt), (∀ m ∈ l, m ∈ nodes) → CycInv nodes deps st →
      (∀ z, st.stack.getLast? = some z → ∀ m ∈ l, m ∈ depsOfId deps z.id) →
      nodes.length + 1 ≤ fuel + st.stack.length →
      (match foldE (cvisit deps fuel) l st with
       | .ok st' => CycInv nodes deps st' ∧ st'.stack = st.stack ∧
           st'.inStack = st.inStack ∧ (∀ a ∈ st.visited, a ∈ st'.visited) ∧
           (∀ m ∈ l, m.id ∈ st'.visited)
       | .error e => CycErrSpec nodes deps e) := by
  intro l
  induction l with
  | nil =>
    intro st _ hinv _ _
    simp only [foldE]
    exact ⟨hinv, by simp, by simp, fun a ha => ha, by simp⟩
  | cons m rest ih =>
    intro st hmem hinv hlink hbud
    have hAm := hA m st (hmem m (by simp)) hinv (fun z hz => hlink z hz m (by simp)) hbud
    cases hc : cvisit deps fuel m st with
    | error e =>
      rw [hc] at hAm
      have hfe : foldE (cvisit deps fuel) (m :: rest) st = .error e := by
        simp only [foldE, hc]
      rw [hfe]
      exact hAm
    | ok st1 =>
      rw [hc] at hAm
      obtain ⟨hinv1, hstk1, hins1, hmono1, hm1⟩ := hAm
      have hrest := ih st1 (fun m' hm' => hmem m' (by simp [hm'])) hinv1
        (fun z hz m' hm' => by
          rw [hstk1] at hz
          exact hlink z hz m' (List.mem_cons_of_mem _ hm'))
        (by rw [hstk1]; exact hbud)
      have hfe : foldE (cvisit deps fuel) (m :: rest) st =
          foldE (cvisit deps fuel) rest st1 := by
        simp only [foldE, hc]
      rw [hfe]
      cases hf : foldE (cvisit deps fuel) rest st1 with
      | error e =>
        rw [hf] at hrest
        exact hrest
      | ok st' =>
        rw [hf] at hrest
        obtain ⟨hinv', hstk', hins', hmono', hcov'⟩ := hrest
        refine ⟨hinv', hstk'.trans hstk1, hins'.trans hins1,
          fun a ha => hmono' _ (hmono1 a ha), ?_⟩
        intro m' hm'
        rcases List.mem_cons.mp hm' with h | h
        · subst h
          exact hmono' _ hm1
        · exact hcov' m' h

theorem cvisit_spec (nodes : List DNode) (deps : List (Nat × List DNode))
    (hnd : (nodes.map DNode.id).Nodup)
    (hdv : ∀ a : Nat, ∀ m ∈ depsOfId deps a, m ∈ nodes) :
    ∀ fuel : Nat,
      ∀ (n : DNode) (st : CycSt), n ∈ nodes → CycInv nodes deps st →
        (∀ z, st.stack.getLast? = some z → n ∈ depsOfId deps z.id) →
        nodes.length + 1 ≤ fuel + st.stack.length →
        (match cvisit deps fuel n st with
         | .ok st' => CycInv nodes deps st' ∧ st'.stack = st.stack ∧
             st'.inStack = st.inStack ∧ (∀ a ∈ st.visited, a ∈ st'.visited) ∧
             n.id ∈ st'.visited
         | .error e => CycErrSpec nodes deps e) := by
  intro fuel
  induction fuel with
  | zero =>
    intro n st hn hinv hlink hbud
    cases hl : lookupN n.id st.inStack with
    | some idx =>
      have he : cvisit deps 0 n st =
          .error (.cycle (((st.stack.drop idx) ++ [n]).map DNode.label)) := by
        rw [cvisit, hl]
      rw [he]
      exact cvisit_cycle_found hnd hn hinv hlink hl
    | none =>
      by_cases hv : n.id ∈ st.visited
      · have hok : cvisit deps 0 n st = .ok st := by
          rw [cvisit, hl, if_pos hv]
        rw [hok]
        exact ⟨hinv, rfl, rfl, fun a ha => ha, hv⟩
      · exfalso
        obtain ⟨hS2, hS1, hS3, hS4, hS5, hS6, hS7⟩ := hinv
        have hsub : st.stack.map DNode.id ⊆ nodes.map DNode.id := by
          intro a ha
          obtain ⟨x, hx, hxa⟩ := List.mem_map.mp ha
          exact List.mem_map.mpr ⟨x, hS4 x hx, hxa⟩
        have hle := (List.subperm_of_subset (stack_ids_nodup hS1) hsub).length_le
        simp only [List.length_map] at hle
        omega
  | succ fuel ih =>
    intro n st hn hinv hlink hbud
    cases hl : lookupN n.id st.inStack with
    | some idx =>
      have he : cvisit deps (fuel + 1) n st =
          .error (.cycle (((st.stack.drop idx) ++ [n]).map DNode.label)) := by
        rw [cvisit, hl]
      rw [he]
      exact cvisit_cycle_found hnd hn hinv hlink hl
    | none =>
      by_cases hv : n.id ∈ st.visited
      · have hok : cvisit deps (fuel + 1) n st = .ok st := by
          rw [cvisit, hl, if_pos hv]
        rw [hok]
        exact ⟨hinv, rfl, rfl, fun a ha => ha, hv⟩
      · have hinv1 : CycInv nodes deps
            ⟨st.visited, (n.id, st.stack.length) :: st.inStack, st.stack ++ [n]⟩ :=
          cvisit_push_inv hn hinv hl hv hlink
        have hB := foldE_cvisit_spec nodes deps fuel ih (depsOfId deps n.id)
          ⟨st.visited, (n.id, st.stack.length) :: st.inStack, st.stack ++ [n]⟩
          (fun m hm => hdv n.id m hm) hinv1
          (fun z hz m hm => by
            simp only [List.getLast?_concat, Option.some.injEq] at hz
            subst hz
            exact hm)
          (by simp only [List.length_append, List.length_cons, List.length_nil]; omega)
        cases hf : foldE (cvisit deps fuel) (depsOfId deps n.id)
            ⟨st.visited, (n.id, st.stack.length) :: st.inStack, st.stack ++ [n]⟩ with
        | error e =>
          rw [hf] at hB
          have he : cvisit deps (fuel + 1) n st = .error e := by
            rw [cvisit, hl]
            simp only [if_neg hv, hf]
          rw [he]
          exact hB
        | ok st2 =>
          rw [hf] at hB
          obtain ⟨hinv2, hstk2, hins2, hmono2, hcov2⟩ := hB
          obtain ⟨hinv3, hstk3, hins3⟩ :=
            cvisit_pop_inv hinv hl hinv2 hstk2 hins2 hcov2
          have hok : cvisit deps (fuel + 1) n st =
              .ok ⟨n.id :: st2.visited, eraseKey n.id st2.inStack, st2.stack.dropLast⟩ := by
            rw [cvisit, hl]
            simp only [if_neg hv, hf]
          rw [hok]
          exact ⟨hinv3, hstk3, hins3,
            fun a ha => List.mem_cons_of_mem _ (hmono2 a ha),
            List.mem_cons_self _ _⟩

end dag

namespace dag

theorem checkLoop_spec (nodes : List DNode) (deps : List (Nat × List DNode))
    (hnd : (nodes.map DNode.id).Nodup)
    (hdv : ∀ a : Nat, ∀ m ∈ depsOfId deps a, m ∈ nodes) :
    ∀ (l : List DNode) (st : CycSt), (∀ n ∈ l, n ∈ nodes) → CycInv nodes deps st →
      st.stack = [] →
      (match checkLoop deps (nodes.length + 1) l st with
       | .ok st' => CycInv nodes deps st' ∧ st'.stack = [] ∧
           (∀ a ∈ st.visited, a ∈ st'.visited) ∧ (∀ n ∈ l, n.id ∈ st'.visited)
       | .error e => CycErrSpec nodes deps e) := by
  intro l
  induction l with
  | nil =>
    intro st _ hinv hstk
    simp only [checkLoop]
    exact ⟨hinv, hstk, fun a ha => ha, by simp⟩
  | cons n rest ih =>
    intro st hmem hinv hstk
    by_cases hv : n.id ∈ st.visited
    · have hcl : checkLoop deps (nodes.length + 1) (n :: rest) st =
          checkLoop deps (nodes.length + 1) rest st := by
        simp only [checkLoop, if_pos hv]
      rw [hcl]
      have hrest := ih st (fun m hm => hmem m (List.mem_cons_of_mem _ hm)) hinv hstk
      cases hc : checkLoop deps (nodes.length + 1) rest st with
      | error e => rw [hc] at hrest; exact hrest
      | ok st' =>
        rw [hc] at hrest
        obtain ⟨hinv', hstk', hmono', hcov'⟩ := hrest
        refine ⟨hinv', hstk', hmono', ?_⟩
        intro m hm
        rcases List.mem_cons.mp hm with h | h
        · subst h; exact hmono' _ hv
        · exact hcov' m h
    · have hAn := cvisit_spec nodes deps hnd hdv (nodes.length + 1) n st
        (hmem n (by simp)) hinv
        (fun z hz => by rw [hstk] at hz; exact absurd hz (by simp))
        (by rw [hstk]; simp)
      cases hc : cvisit deps (nodes.length + 1) n st with
      | error e =>
        rw [hc] at hAn
        have hcl : checkLoop deps (nodes.length + 1) (n :: rest) st = .error e := by
          simp only [checkLoop, if_neg hv, hc]
        rw [hcl]
        exact hAn
      | ok st1 =>
        rw [hc] at hAn
        obtain ⟨hinv1, hstk1, hins1, hmono1, hn1⟩ := hAn
        have hcl : checkLoop deps (nodes.length + 1) (n :: rest) st =
            checkLoop deps (nodes.length + 1) rest st1 := by
          simp only [checkLoop, if_neg hv, hc]
        rw [hcl]
        have hrest := ih st1 (fun m hm => hmem m (List.mem_cons_of_mem _ hm)) hinv1
          (by rw [hstk1]; exact hstk)
        cases hc2 : checkLoop deps (nodes.length + 1) rest st1 with
        | error e => rw [hc2] at hrest; exact hrest
        | ok st' =>
          rw [hc2] at hrest
          obtain ⟨hinv', hstk', hmono', hcov'⟩ := hrest
          refine ⟨hinv', hstk', fun a ha => hmono' _ (hmono1 a ha), ?_⟩
          intro m hm
          rcases List.mem_cons.mp hm with h | h
          · subst h; exact hmono' _ hn1
          · exact hcov' m h

theorem cycInv_init (nodes : List DNode) (deps : List (Nat × List DNode)) :
    CycInv nodes deps ⟨[], [], []⟩ := by
  refine ⟨?_, ?_, ?_, ?_, ?_, ?_, ?_⟩ <;> intros <;> simp_all [lookupN]

theorem checkCycles_ok_acyclic {nodes : List DNode} {deps : List (Nat × List DNode)}
    (hnd : (nodes.map DNode.id).Nodup)
    (hdv : ∀ a : Nat, ∀ m ∈ depsOfId deps a, m ∈ nodes)
    (h : checkCycles nodes deps = .ok ()) :
    ∀ a, ¬ Relation.TransGen (stepD deps) a a := by
  intro a hcyc
  have hspec := checkLoop_spec nodes deps hnd hdv nodes ⟨[], [], []⟩
    (fun n hn => hn) (cycInv_init nodes deps) rfl
  cases hcl : checkLoop deps (nodes.length + 1) nodes ⟨[], [], []⟩ with
  | error e =>
    simp only [checkCycles, hcl] at h
    exact Except.noConfusion h
  | ok st' =>
    rw [hcl] at hspec
    obtain ⟨⟨_, _, _, _, _, hS6', _⟩, _, _, hcov'⟩ := hspec
    obtain ⟨c, hac, hca⟩ := Relation.TransGen.tail'_iff.mp hcyc
    obtain ⟨m, hm, hma⟩ := List.mem_map.mp hca
    have hmnodes : m ∈ nodes := hdv c m hm
    have hav : a ∈ st'.visited := hma ▸ hcov' m hmnodes
    exact hS6' a hav hcyc

theorem checkCycles_error_spec {nodes : List DNode} {deps : List (Nat × List DNode)}
    (hnd : (nodes.map DNode.id).Nodup)
    (hdv : ∀ a : Nat, ∀ m ∈ depsOfId deps a, m ∈ nodes)
    {e : DagError} (h : checkCycles nodes deps = .error e) :
    CycErrSpec nodes deps e := by
  have hspec := checkLoop_spec nodes deps hnd hdv nodes ⟨[], [], []⟩
    (fun n hn => hn) (cycInv_init nodes deps) rfl
  cases hcl : checkLoop deps (nodes.length + 1) nodes ⟨[], [], []⟩ with
  | error e' =>
    rw [hcl] at hspec
    simp only [checkCycles, hcl] at h
    injection h with h'
    exact h' ▸ hspec
  | ok st' =>
    simp only [checkCycles, hcl] at h
    exact Except.noConfusion h

theorem checkCycles_fails_of_cycle {nodes : List DNode} {deps : List (Nat × List DNode)}
    (hnd : (nodes.map DNode.id).Nodup)
    (hdv : ∀ a : Nat, ∀ m ∈ depsOfId deps a, m ∈ nodes)
    (hcyc : ∃ a, Relation.TransGen (stepD deps) a a) :
    ∃ e, checkCycles nodes deps = .error e ∧ CycErrSpec nodes deps e := by
  cases hc : checkCycles nodes deps with
  | ok u =>
    obtain ⟨a, ha⟩ := hcyc
    cases u
    exact absurd ha (checkCycles_ok_acyclic hnd hdv hc a)
  | error e => exact ⟨e, rfl, checkCycles_error_spec hnd hdv hc⟩

end dag

/-! ### Verification of the topological sort -/

namespace dag

theorem resolve_deps_values {nodes : List DNode} {prods : List (Nat × DNode)}
    {deps : List (Nat × List DNode)}
    (hp : buildProducers nodes [] = .ok prods)
    (hd : buildDeps prods nodes [] = .ok deps) :
    ∀ a : Nat, ∀ m ∈ depsOfId deps a, m ∈ nodes := by
  intro a m hm
  rcases buildDeps_superset nodes [] deps hd a m hm with h | h
  · simp [depsOfId, lookupN] at h
  · obtain ⟨k, hk⟩ := h
    rcases buildProducers_lookup nodes [] prods hp k m hk with h' | h'
    · simp [lookupN] at h'
    · exact h'.1

theorem foldE_tvisit_spec (nodes : List DNode) (deps : List (Nat × List DNode))
    (fuel : Nat)
    (hA : ∀ (n : DNode) (st : TopoSt), n ∈ nodes → TopoInv nodes deps st →
      (match tvisit deps fuel n st with
       | .ok st' => TopoInv nodes deps st' ∧ (∃ δ, st'.sorted = st.sorted ++ δ) ∧
           (∀ a ∈ st.visited, a ∈ st'.visited) ∧ n.id ∈ st'.visited ∧
           (∀ a ∈ st'.visited, a ∈ st.visited ∨ a = n.id ∨
              Relation.TransGen (stepD deps) n.id a)
       | .error e => True)) :
    ∀ (l : List DNode) (st : TopoSt), (∀ m ∈ l, m ∈ nodes) → TopoInv nodes deps st →
      (match foldE (tvisit deps fuel) l st with
       | .ok st' => TopoInv nodes deps st' ∧ (∃ δ, st'.sorted = st.sorted ++ δ) ∧
           (∀ a ∈ st.visited, a ∈ st'.visited) ∧ (∀ m ∈ l, m.id ∈ st'.visited) ∧
           (∀ a ∈ st'.visited, a ∈ st.visited ∨ ∃ m ∈ l, a = m.id ∨
              Relation.TransGen (stepD deps) m.id a)
       | .error e => True) := by
  intro l
  induction l with
  | nil =>
    intro st _ hinv
    simp only [foldE]
    exact ⟨hinv, ⟨[], by simp⟩, fun a ha => ha, by simp, fun a ha => Or.inl ha⟩
  | cons m rest ih =>
    intro st hmem hinv
    have hAm := hA m st (hmem m (by simp)) hinv
    cases hc : tvisit deps fuel m st with
    | error e =>
      have hfe : foldE (tvisit deps fuel) (m :: rest) st = .error e := by
        simp only [foldE, hc]
      rw [hfe]
      trivial
    | ok st1 =>
      rw [hc] at hAm
      obtain ⟨hinv1, ⟨δ1, hδ1⟩, hmono1, hm1, hprov1⟩ := hAm
      have hfe : foldE (tvisit deps fuel) (m :: rest) st =
          foldE (tvisit deps fuel) rest st1 := by
        simp only [foldE, hc]
      rw [hfe]
      have hrest := ih st1 (fun m' hm' => hmem m' (List.mem_cons_of_mem _ hm')) hinv1
      cases hf : foldE (tvisit deps fuel) rest st1 with
      | error e => trivial
      | ok st' =>
        rw [hf] at hrest
        obtain ⟨hinv', ⟨δ2, hδ2⟩, hmono', hcov', hprov'⟩ := hrest
        refine ⟨hinv', ⟨δ1 ++ δ2, by rw [hδ2, hδ1, List.append_assoc]⟩,
          fun a ha => hmono' _ (hmono1 a ha), ?_, ?_⟩
        · intro m' hm'
          rcases List.mem_cons.mp hm' with h | h
          · subst h; exact hmono' _ hm1
          · exact hcov' m' h
        · intro a ha
          rcases hprov' a ha with h | ⟨m', hm', h⟩
          · rcases hprov1 a h with h' | h'
            · exact Or.inl h'
            · exact Or.inr ⟨m, by simp, h'⟩
          · exact Or.inr ⟨m', List.mem_cons_of_mem _ hm', h⟩

theorem tvisit_spec (nodes : List DNode) (deps : List (Nat × List DNode))
    (hnd : (nodes.map DNode.id).Nodup)
    (hdv : ∀ a : Nat, ∀ m ∈ depsOfId deps a, m ∈ nodes)
    (hacyc : ∀ a, ¬ Relation.TransGen (stepD deps) a a) :
    ∀ fuel : Nat,
      ∀ (n : DNode) (st : TopoSt), n ∈ nodes → TopoInv nodes deps st →
        (match tvisit deps fuel n st with
         | .ok st' => TopoInv nodes deps st' ∧ (∃ δ, st'.sorted = st.sorted ++ δ) ∧
             (∀ a ∈ st.visited, a ∈ st'.visited) ∧ n.id ∈ st'.visited ∧
             (∀ a ∈ st'.visited, a ∈ st.visited ∨ a = n.id ∨
                Relation.TransGen (stepD deps) n.id a)
         | .error e => True) := by
  intro fuel
  induction fuel with
  | zero =>
    intro n st hn hinv
    by_cases hv : n.id ∈ st.visited
    · have hok : tvisit deps 0 n st = .ok st := by
        rw [tvisit, if_pos hv]
      rw [hok]
      exact ⟨hinv, ⟨[], by simp⟩, fun a ha => ha, hv, fun a ha => Or.inl ha⟩
    · have he : tvisit deps 0 n st = .error .outOfFuel := by
        rw [tvisit, if_neg hv]
      rw [he]
      trivial
  | succ fuel ih =>
    intro n st hn hinv
    by_cases hv : n.id ∈ st.visited
    · have hok : tvisit deps (fuel + 1) n st = .ok st := by
        rw [tvisit, if_pos hv]
      rw [hok]
      exact ⟨hinv, ⟨[], by simp⟩, fun a ha => ha, hv, fun a ha => Or.inl ha⟩
    · have hB := foldE_tvisit_spec nodes deps fuel ih (depsOfId deps n.id) st
        (fun m hm => hdv n.id m hm) hinv
      cases hf : foldE (tvisit deps fuel) (depsOfId deps n.id) st with
      | error e =>
        have he : tvisit deps (fuel + 1) n st = .error e := by
          rw [tvisit, if_neg hv]
          simp only [hf]
        rw [he]
        trivial
      | ok st1 =>
        rw [hf] at hB
        obtain ⟨hinv1, ⟨δ1, hδ1⟩, hmono1, hcov1, hprov1⟩ := hB
        have hok : tvisit deps (fuel + 1) n st =
            .ok ⟨n.id :: st1.visited, st1.sorted ++ [n]⟩ := by
          rw [tvisit, if_neg hv]
          simp only [hf]
        rw [hok]
        obtain ⟨hT1, hT2, hT3, hT4⟩ := hinv1
        -- the step edge from n to each of its dependencies
        have hedge : ∀ m ∈ depsOfId deps n.id, stepD deps n.id m.id := by
          intro m hm
          exact List.mem_map.mpr ⟨m, hm, rfl⟩
        -- n was not visited by the children pass, by acyclicity
        have hnv1 : n.id ∉ st1.visited := by
          intro hc
          rcases hprov1 n.id hc with h | ⟨m, hm, h⟩
          · exact hv h
          · rcases h with h | h
            · exact hacyc n.id (Relation.TransGen.single (h ▸ hedge m hm))
            · exact hacyc n.id (Relation.TransGen.head (hedge m hm) h)
        refine ⟨⟨?_, ?_, ?_, ?_⟩, ⟨δ1 ++ [n], by rw [hδ1, List.append_assoc]⟩, ?_, ?_, ?_⟩
        · intro a
          simp only [List.mem_cons, List.map_append, List.mem_append, List.map_cons,
            List.map_nil, List.mem_singleton]
          constructor
          · rintro (h | h)
            · exact Or.inr (Or.inl h)
            · exact Or.inl ((hT1 a).mp h)
          · rintro (h | h | h)
            · exact Or.inr ((hT1 a).mpr h)
            · exact Or.inl h
            · simp at h
        · simp only [List.map_append, List.map_cons, List.map_nil]
          rw [List.nodup_append]
          refine ⟨hT2, by simp, ?_⟩
          intro a ha hc
          simp only [List.mem_singleton] at hc
          exact hnv1 (hc ▸ (hT1 a).mpr ha)
        · intro x hx
          rcases List.mem_append.mp hx with h | h
          · exact hT3 x h
          · simp only [List.mem_singleton] at h
            subst h
            exact hn
        · intro j x hx m hm
          by_cases hj : j < st1.sorted.length
          · rw [List.getElem?_append_left hj] at hx
            obtain ⟨j', hj', hjm⟩ := hT4 j x hx m hm
            exact ⟨j', hj', by rw [List.getElem?_append_left (by omega)]; exact hjm⟩
          · have hlen : j < st1.sorted.length + 1 := by
              have := (List.getElem?_eq_some_iff.mp hx).1
              simpa [List.length_append] using this
            have hjeq : j = st1.sorted.length := by omega
            subst hjeq
            rw [List.getElem?_concat_length] at hx
            injection hx with hx
            subst hx
            have hmv : m.id ∈ st1.visited := hcov1 m hm
            have hmids : m.id ∈ st1.sorted.map DNode.id := (hT1 m.id).mp hmv
            obtain ⟨x', hx', hxid⟩ := List.mem_map.mp hmids
            obtain ⟨j', hj'⟩ := List.mem_iff_getElem?.mp hx'
            have hj'lt : j' < st1.sorted.length := (List.getElem?_eq_some_iff.mp hj').1
            have hx'm : x' = m :=
              List.inj_on_of_nodup_map hnd (hT3 x' hx') (hdv n.id m hm) hxid
            refine ⟨j', hj'lt, ?_⟩
            rw [List.getElem?_append_left hj'lt, hj', hx'm]
        · intro a ha
          exact List.mem_cons_of_mem _ (hmono1 a ha)
        · exact List.mem_cons_self _ _
        · intro a ha
          rcases List.mem_cons.mp ha with h | h
          · exact Or.inr (Or.inl h)
          · rcases hprov1 a h with h' | ⟨m, hm, h'⟩
            · exact Or.inl h'
            · rcases h' with h' | h'
              · exact Or.inr (Or.inr (Relation.TransGen.single (h' ▸ hedge m hm)))
              · exact Or.inr (Or.inr (Relation.TransGen.head (hedge m hm) h'))

end dag

namespace dag

theorem topoLoop_spec (nodes : List DNode) (deps : List (Nat × List DNode))
    (hnd : (nodes.map DNode.id).Nodup)
    (hdv : ∀ a : Nat, ∀ m ∈ depsOfId deps a, m ∈ nodes)
    (hacyc : ∀ a, ¬ Relation.TransGen (stepD deps) a a) (fuel : Nat) :
    ∀ (l : List DNode) (st : TopoSt), (∀ n ∈ l, n ∈ nodes) → TopoInv nodes deps st →
      (match topoLoop deps fuel l st with
       | .ok st' => TopoInv nodes deps st' ∧ (∀ a ∈ st.visited, a ∈ st'.visited) ∧
           (∀ n ∈ l, n.id ∈ st'.visited)
       | .error e => True) := by
  intro l
  induction l with
  | nil =>
    intro st _ hinv
    simp only [topoLoop]
    exact ⟨hinv, fun a ha => ha, by simp⟩
  | cons n rest ih =>
    intro st hmem hinv
    by_cases hv : n.id ∈ st.visited
    · have hcl : topoLoop deps fuel (n :: rest) st = topoLoop deps fuel rest st := by
        simp only [topoLoop, if_pos hv]
      rw [hcl]
      have hrest := ih st (fun m hm => hmem m (List.mem_cons_of_mem _ hm)) hinv
      cases hc : topoLoop deps fuel rest st with
      | error e => trivial
      | ok st' =>
        rw [hc] at hrest
        obtain ⟨hinv', hmono', hcov'⟩ := hrest
        refine ⟨hinv', hmono', ?_⟩
        intro m hm
        rcases List.mem_cons.mp hm with h | h
        · subst h; exact hmono' _ hv
        · exact hcov' m h
    · have hAn := tvisit_spec nodes deps hnd hdv hacyc fuel n st (hmem n (by simp)) hinv
      cases hc : tvisit deps fuel n st with
      | error e =>
        have hcl : topoLoop deps fuel (n :: rest) st = .error e := by
          simp only [topoLoop, if_neg hv, hc]
        rw [hcl]
        trivial
      | ok st1 =>
        rw [hc] at hAn
        obtain ⟨hinv1, _, hmono1, hn1, _⟩ := hAn
        have hcl : topoLoop deps fuel (n :: rest) st = topoLoop deps fuel rest st1 := by
          simp only [topoLoop, if_neg hv, hc]
        rw [hcl]
        have hrest := ih st1 (fun m hm => hmem m (List.mem_cons_of_mem _ hm)) hinv1
        cases hc2 : topoLoop deps fuel rest st1 with
        | error e => trivial
        | ok st' =>
          rw [hc2] at hrest
          obtain ⟨hinv', hmono', hcov'⟩ := hrest
          refine ⟨hinv', fun a ha => hmono' _ (hmono1 a ha), ?_⟩
          intro m hm
          rcases List.mem_cons.mp hm with h | h
          · subst h; exact hmono' _ hn1
          · exact hcov' m h

theorem topoInv_init (nodes : List DNode) (deps : List (Nat × List DNode)) :
    TopoInv nodes deps ⟨[], []⟩ := by
  refine ⟨?_, ?_, ?_, ?_⟩ <;> intros <;> simp_all

theorem topologicalSort_ok {nodes : List DNode} {deps : List (Nat × List DNode)}
    {sorted : List DNode}
    (hnd : (nodes.map DNode.id).Nodup)
    (hdv : ∀ a : Nat, ∀ m ∈ depsOfId deps a, m ∈ nodes)
    (h : topologicalSort nodes deps = .ok sorted) :
    (∀ (j : Nat) (x : DNode), sorted[j]? = some x → ∀ m ∈ depsOfId deps x.id,
       ∃ j' < j, sorted[j']? = some m) ∧
    (sorted.map DNode.id).Nodup ∧
    (∀ x ∈ sorted, x ∈ nodes) ∧
    (∀ n ∈ nodes, n.id ∈ sorted.map DNode.id) := by
  simp only [topologicalSort] at h
  cases hcc : checkCycles nodes deps with
  | error e => rw [hcc] at h; exact absurd h (by simp)
  | ok u =>
    cases u
    rw [hcc] at h
    simp only at h
    have hacyc := checkCycles_ok_acyclic hnd hdv hcc
    have hspec := topoLoop_spec nodes deps hnd hdv hacyc (nodes.length + 1) nodes
      ⟨[], []⟩ (fun n hn => hn) (topoInv_init nodes deps)
    cases htl : topoLoop deps (nodes.length + 1) nodes ⟨[], []⟩ with
    | error e => rw [htl] at h; exact absurd h (by simp)
    | ok st' =>
      rw [htl] at h
      simp only [Except.ok.injEq] at h
      subst h
      rw [htl] at hspec
      obtain ⟨⟨hT1, hT2, hT3, hT4⟩, _, hcov⟩ := hspec
      exact ⟨hT4, hT2, hT3, fun n hn => (hT1 n.id).mp (hcov n hn)⟩

end dag

namespace dag

theorem Resolve_ok_ids {nodes sorted : List DNode}
    (hnd : (nodes.map DNode.id).Nodup)
    (h : Resolve nodes = .ok sorted) :
    (sorted.map DNode.id).Nodup ∧ ∀ n ∈ nodes, n.id ∈ sorted.map DNode.id := by
  cases hp : buildProducers nodes [] with
  | error e => simp only [Resolve, hp] at h; exact absurd h (by simp)
  | ok prods =>
    cases hd : buildDeps prods nodes [] with
    | error e => simp only [Resolve, hp, hd] at h; exact absurd h (by simp)
    | ok deps =>
      simp only [Resolve, hp, hd] at h
      have hdv := resolve_deps_values hp hd
      obtain ⟨_, hB, _, hD⟩ := topologicalSort_ok hnd hdv h
      exact ⟨hB, hD⟩

end dag

/-- C1: when `Resolve` succeeds, the returned sequence is a topological
order — every node appears strictly after the producer of each of its
declared input capability keys. -/
theorem claim_C1_topological_order
    (nodes sorted : List dag.DNode)
    (hnd : (nodes.map dag.DNode.id).Nodup)
    (h : dag.Resolve nodes = .ok sorted) :
    ∀ (i : Nat) (n : dag.DNode), sorted[i]? = some n → ∀ k ∈ n.inputs,
      ∃ j m, j < i ∧ sorted[j]? = some m ∧ k ∈ m.outputs := by
  cases hp : dag.buildProducers nodes [] with
  | error e => simp only [dag.Resolve, hp] at h; exact absurd h (by simp)
  | ok prods =>
    cases hd : dag.buildDeps prods nodes [] with
    | error e => simp only [dag.Resolve, hp, hd] at h; exact absurd h (by simp)
    | ok deps =>
      simp only [dag.Resolve, hp, hd] at h
      have hdv := dag.resolve_deps_values hp hd
      obtain ⟨hA, _, hC, _⟩ := dag.topologicalSort_ok hnd hdv h
      intro i n hi k hk
      have hn_sorted : n ∈ sorted := by
        obtain ⟨h1, h2⟩ := List.getElem?_eq_some_iff.mp hi
        exact h2 ▸ List.getElem_mem h1
      have hn_nodes : n ∈ nodes := hC n hn_sorted
      obtain ⟨m, hmprod, hmdep⟩ := dag.buildDeps_covers nodes [] deps hd n hn_nodes k hk
      have hkout : k ∈ m.outputs := by
        rcases dag.buildProducers_lookup nodes [] prods hp k m hmprod with h' | h'
        · simp [dag.lookupN] at h'
        · exact h'.2
      obtain ⟨j, hj, hjm⟩ := hA i n hi m hmdep
      exact ⟨j, m, hj, hjm, hkout⟩

/-- Witness for C1: a two-node graph registered consumer-first still
resolves to producer-before-consumer order, and the order property holds
at every position. -/
theorem claim_C1_witness :
    ∃ j m, j < 1 ∧
      [(⟨0, "a", [], [1], []⟩ : dag.DNode), ⟨1, "b", [1], [2], []⟩][j]? = some m ∧
      1 ∈ m.outputs :=
  claim_C1_topological_order
    [⟨1, "b", [1], [2], []⟩, ⟨0, "a", [], [1], []⟩]
    [⟨0, "a", [], [1], []⟩, ⟨1, "b", [1], [2], []⟩]
    (by decide) rfl 1 ⟨1, "b", [1], [2], []⟩ rfl 1 (by decide)

/-- C4: when producer mapping and edge construction succeed and the
dependency relation contains a cycle (a self-loop included), `Resolve`
fails with a Cycle error whose message lists the labels of a dependency
chain of length at least two that starts at the revisited node and ends
at that same node, joined by the `" -> "` separator. -/
theorem claim_C4_cycle_error
    (nodes : List dag.DNode) (prods : List (Nat × dag.DNode))
    (deps : List (Nat × List dag.DNode))
    (hnd : (nodes.map dag.DNode.id).Nodup)
    (hp : dag.buildProducers nodes [] = .ok prods)
    (hd : dag.buildDeps prods nodes [] = .ok deps)
    (hcyc : ∃ a, Relation.TransGen (dag.stepD deps) a a) :
    ∃ cyc : List dag.DNode,
      dag.Resolve nodes = .error (.cycle (cyc.map dag.DNode.label)) ∧
      2 ≤ cyc.length ∧ cyc.head? = cyc.getLast? ∧
      List.Chain' (fun x y => y ∈ dag.depsOfId deps x.id) cyc ∧
      (∀ x ∈ cyc, x ∈ nodes) ∧
      (dag.DagError.cycle (cyc.map dag.DNode.label)).message =
        "cyclic dependence: " ++ String.intercalate " -> " (cyc.map dag.DNode.label) := by
  have hdv := dag.resolve_deps_values hp hd
  obtain ⟨e, he, hspec⟩ := dag.checkCycles_fails_of_cycle hnd hdv hcyc
  obtain ⟨cyc, heq, hlen, hheadlast, hchain, hmem⟩ := hspec
  subst heq
  refine ⟨cyc, ?_, hlen, hheadlast, hchain, hmem, rfl⟩
  simp only [dag.Resolve, hp, hd, dag.topologicalSort, dag.checkCycles] at *
  cases hcl : dag.checkLoop deps (nodes.length + 1) nodes ⟨[], [], []⟩ with
  | error e' =>
    rw [hcl] at he
    injection he with he'
    rw [he']
  | ok st =>
    rw [hcl] at he
    exact absurd he (by simp)

/-- Witness for C4: the two-node cycle A→B→A; `Resolve` reports
"A -> B -> A". -/
theorem claim_C4_witness :
    ∃ cyc : List dag.DNode,
      dag.Resolve [(⟨0, "A", [2], [1], []⟩ : dag.DNode), ⟨1, "B", [1], [2], []⟩] =
        .error (.cycle (cyc.map dag.DNode.label)) ∧
      2 ≤ cyc.length ∧ cyc.head? = cyc.getLast? ∧
      List.Chain' (fun x y =>
        y ∈ dag.depsOfId [(0, [⟨1, "B", [1], [2], []⟩]), (1, [⟨0, "A", [2], [1], []⟩])] x.id) cyc ∧
      (∀ x ∈ cyc, x ∈ [(⟨0, "A", [2], [1], []⟩ : dag.DNode), ⟨1, "B", [1], [2], []⟩]) ∧
      (dag.DagError.cycle (cyc.map dag.DNode.label)).message =
        "cyclic dependence: " ++ String.intercalate " -> " (cyc.map dag.DNode.label) :=
  claim_C4_cycle_error
    [⟨0, "A", [2], [1], []⟩, ⟨1, "B", [1], [2], []⟩]
    [(2, ⟨1, "B", [1], [2], []⟩), (1, ⟨0, "A", [2], [1], []⟩)]
    [(0, [⟨1, "B", [1], [2], []⟩]), (1, [⟨0, "A", [2], [1], []⟩])]
    (by decide) rfl rfl
    ⟨0, by
      have h01 : dag.stepD
          [(0, [⟨1, "B", [1], [2], []⟩]), (1, [⟨0, "A", [2], [1], []⟩])] 0 1 := by decide
      have h10 : dag.stepD
          [(0, [⟨1, "B", [1], [2], []⟩]), (1, [⟨0, "A", [2], [1], []⟩])] 1 0 := by decide
      exact Relation.TransGen.head h01 (Relation.TransGen.single h10)⟩

/-- C8: registering the same constructor callable twice is idempotent —
the second `Add` changes nothing, the container holds the node once, the
node appears exactly once in any successful resolved order, and its
callable is invoked exactly once during a successful `Run`. -/
theorem claim_C8_duplicate_registration_idempotent
    (call : Nat → List BS.GoVal → List BS.Slot) (b : BS.Boot) (f : BS.FnDesc)
    (hberr : b.err = none)
    (hins : f.insInject = false) (hrets : f.retsInject = false)
    (hfn : f.ptrId ∉ b.functions) :
    (BS.Add b [.func f, .func f] = BS.Add b [.func f] ∧
     (BS.Add b [.func f, .func f]).providers = b.providers ++ [BS.mkNode f]) ∧
    (∀ sorted, ((BS.Add b [.func f, .func f]).providers.map dag.DNode.id).Nodup →
       dag.Resolve (BS.Add b [.func f, .func f]).providers = .ok sorted →
       (sorted.map dag.DNode.id).count f.ptrId = 1) ∧
    (∀ (b' : BS.Boot) (tr : List Nat),
       ((BS.Add b [.func f, .func f]).providers.map dag.DNode.id).Nodup →
       BS.Run call (BS.Add b [.func f, .func f]) = (b', tr, none) →
       tr.count f.ptrId = 1) := by
  have h1 : BS.addOne b (.func f) =
      .ok ⟨b.providers ++ [BS.mkNode f], b.values, b.cleanups,
           f.ptrId :: b.functions, b.fresh, none⟩ := by
    simp [BS.addOne, BS.registerProvider, hins, hrets, hfn, hberr]
  have h2 : BS.addOne
      ⟨b.providers ++ [BS.mkNode f], b.values, b.cleanups,
       f.ptrId :: b.functions, b.fresh, none⟩ (.func f) =
      .ok ⟨b.providers ++ [BS.mkNode f], b.values, b.cleanups,
           f.ptrId :: b.functions, b.fresh, none⟩ := by
    simp [BS.addOne, BS.registerProvider, hins, hrets]
  have hadd : BS.Add b [.func f, .func f] =
      ⟨b.providers ++ [BS.mkNode f], b.values, b.cleanups,
       f.ptrId :: b.functions, b.fresh, none⟩ := by
    simp [BS.Add, hberr, BS.addLoop, h1, h2]
  have hadd1 : BS.Add b [.func f] =
      ⟨b.providers ++ [BS.mkNode f], b.values, b.cleanups,
       f.ptrId :: b.functions, b.fresh, none⟩ := by
    simp [BS.Add, hberr, BS.addLoop, h1]
  have hcount : ∀ sorted, ((BS.Add b [.func f, .func f]).providers.map dag.DNode.id).Nodup →
      dag.Resolve (BS.Add b [.func f, .func f]).providers = .ok sorted →
      (sorted.map dag.DNode.id).count f.ptrId = 1 := by
    intro sorted hnd hres
    obtain ⟨hnds, hcov⟩ := dag.Resolve_ok_ids hnd hres
    have hfmem : (BS.mkNode f).id ∈ sorted.map dag.DNode.id := by
      refine hcov (BS.mkNode f) ?_
      rw [hadd]
      simp
    have hfid : (BS.mkNode f).id = f.ptrId := rfl
    rw [hfid] at hfmem
    exact List.count_eq_one_of_mem hnds hfmem
  refine ⟨⟨by rw [hadd, hadd1], by rw [hadd]⟩, hcount, ?_⟩
  intro b' tr hnd hrun
  have hb2err : (BS.Add b [.func f, .func f]).err = none := by
    rw [hadd]
  cases hres : dag.Resolve (BS.Add b [.func f, .func f]).providers with
  | error e =>
    simp only [BS.Run, hb2err, hres] at hrun
    simp at hrun
  | ok sorted =>
    simp only [BS.Run, hb2err, hres] at hrun
    rcases hre : BS.runExec call sorted
        ⟨(BS.Add b [.func f, .func f]).values, (BS.Add b [.func f, .func f]).cleanups⟩
      with ⟨s', tr2, r⟩
    rw [hre] at hrun
    simp only [Prod.mk.injEq] at hrun
    obtain ⟨_, htr, hr⟩ := hrun
    have hrnone : r = none := by
      cases r with
      | none => rfl
      | some e => simp at hr
    subst hrnone
    have htrace := BS.runExec_ok_trace call sorted _ _ _ hre
    rw [← htr, htrace]
    have := hcount sorted hnd hres
    simpa using this

/-- Witness for C8 at an empty container and a single zero-input
constructor producing capability 1. -/
theorem claim_C8_witness :
    (BS.Add ⟨[], [], [], [], 0, none⟩
        [.func ⟨7, "f", [], [.capSlot 1], false, false⟩,
         .func ⟨7, "f", [], [.capSlot 1], false, false⟩] =
       BS.Add ⟨[], [], [], [], 0, none⟩
        [.func ⟨7, "f", [], [.capSlot 1], false, false⟩] ∧
     (BS.Add ⟨[], [], [], [], 0, none⟩
        [.func ⟨7, "f", [], [.capSlot 1], false, false⟩,
         .func ⟨7, "f", [], [.capSlot 1], false, false⟩]).providers =
       [] ++ [BS.mkNode ⟨7, "f", [], [.capSlot 1], false, false⟩]) ∧
    (∀ sorted, ((BS.Add ⟨[], [], [], [], 0, none⟩
        [.func ⟨7, "f", [], [.capSlot 1], false, false⟩,
         .func ⟨7, "f", [], [.capSlot 1], false, false⟩]).providers.map dag.DNode.id).Nodup →
       dag.Resolve (BS.Add ⟨[], [], [], [], 0, none⟩
        [.func ⟨7, "f", [], [.capSlot 1], false, false⟩,
         .func ⟨7, "f", [], [.capSlot 1], false, false⟩]).providers = .ok sorted →
       (sorted.map dag.DNode.id).count 7 = 1) ∧
    (∀ (b' : BS.Boot) (tr : List Nat),
       ((BS.Add ⟨[], [], [], [], 0, none⟩
        [.func ⟨7, "f", [], [.capSlot 1], false, false⟩,
         .func ⟨7, "f", [], [.capSlot 1], false, false⟩]).providers.map dag.DNode.id).Nodup →
       BS.Run (fun _ _ => [.val ⟨0, true, false, none⟩])
         (BS.Add ⟨[], [], [], [], 0, none⟩
          [.func ⟨7, "f", [], [.capSlot 1], false, false⟩,
           .func ⟨7, "f", [], [.capSlot 1], false, false⟩]) = (b', tr, none) →
       tr.count 7 = 1) :=
  claim_C8_duplicate_registration_idempotent
    (fun _ _ => [.val ⟨0, true, false, none⟩])
    ⟨[], [], [], [], 0, none⟩
    ⟨7, "f", [], [.capSlot 1], false, false⟩
    rfl rfl rfl (by decide)
